import Mathlib

/-!
# Verification of the qbindiff graph-matching core

Shallow embedding of the belief-propagation solver
(`qbindiff/belief/belief_propagation.py`), the matcher / sparsifier / refiner
(`qbindiff/matcher/matcher.py`), and the associated claims.

Numeric values are modelled as `ℚ`; numpy arrays become Lean lists; the CSR
sparse format is kept explicitly (`data`, `indices`, `indptr`).
-/

namespace QBinDiff

/-! ## Generic list helpers (numpy / Python primitives) -/

/-- `gather v idx`: numpy fancy indexing `v[idx]` (out-of-range reads default
to `0`-like values, which never occurs on well-formed inputs). -/
def gather {α : Type} [Inhabited α] (v : List α) (idx : List ℕ) : List α :=
  idx.map (fun i => v.getD i default)

/-- Python slice `l[x:y]` with non-negative bounds. -/
def pySlice {α : Type} (l : List α) (x y : ℕ) : List α :=
  (l.take y).drop x

/-- Python slice `l[-a:-b]` with `a, b > 0` (clipped at `0` like Python). -/
def pySliceNeg {α : Type} (l : List α) (a b : ℕ) : List α :=
  (l.take (l.length - b)).drop (l.length - a)

/-- Python slice `l[-p:]` with `p > 0`. -/
def lastN {α : Type} (l : List α) (p : ℕ) : List α :=
  l.drop (l.length - p)

/-- `numpy.argsort` on a vector of keys: the list of indices `0..n-1` sorted
by ascending key.  Modelled as a stable sort (insertion sort), which matches
`kind="mergesort"` exactly; for the default kind the tie order among equal
keys is unspecified, but no result proved here depends on it. -/
def argsort {α : Type} [Inhabited α] [LinearOrder α] (v : List α) : List ℕ :=
  List.insertionSort (fun i j => v.getD i default ≤ v.getD j default)
    (List.range v.length)

/-- `numpy.argmax`: index of the first occurrence of the maximum
(`0` on the empty list, which numpy rejects and the program never passes). -/
def npArgmax (l : List ℚ) : ℕ :=
  match l with
  | [] => 0
  | a :: t => (a :: t).findIdx (fun x => x == t.foldl max a)

/-- Maximum of a list (`0` on the empty list, never used there). -/
def listMax (l : List ℚ) : ℚ :=
  match l with
  | [] => 0
  | a :: t => t.foldl max a

/-- `numpy.cumsum` on natural numbers. -/
def cumsum (l : List ℕ) : List ℕ :=
  (l.scanl (· + ·) 0).tail

/-- `numpy.bincount`: occurrence counts of `0 .. max l` (empty on `[]`). -/
def bincount (l : List ℕ) : List ℕ :=
  match l with
  | [] => []
  | a :: t => (List.range ((a :: t).foldr max 0 + 1)).map (fun c => (a :: t).count c)

/-- `np.logical_xor.reduce`: left fold of xor, i.e. the parity of `true`s. -/
def xorReduce (l : List Bool) : Bool :=
  l.foldl xor false

/-- Boolean-mask selection `v[mask]` (numpy fancy indexing with booleans). -/
def maskSelect {α : Type} (v : List α) (mask : List Bool) : List α :=
  ((v.zip mask).filter (fun p => p.2)).map (fun p => p.1)

/-! ## CSR matrices (`scipy.sparse.csr_matrix`) -/

/-- A CSR matrix as the solver sees it: `data` are the stored (candidate)
entries, `indices` the per-entry column, `indptr` the row-pointer array. -/
structure CSR where
  nrows : ℕ
  ncols : ℕ
  indptr : List ℕ
  indices : List ℕ
  data : List ℚ
  deriving DecidableEq

/-- Number of stored entries (candidate edges). -/
def CSR.E (W : CSR) : ℕ := W.data.length

/-- Well-formedness of the CSR storage, as scipy guarantees it. -/
def CSR.Wf (W : CSR) : Prop :=
  W.indptr.length = W.nrows + 1 ∧
  W.indptr.head? = some 0 ∧
  W.indptr.getLast? = some W.E ∧
  W.indptr.Pairwise (· ≤ ·) ∧
  (∀ p ∈ W.indptr, p ≤ W.E) ∧
  W.indices.length = W.E ∧
  (∀ c ∈ W.indices, c < W.ncols)

/-- The slices of an edge-indexed vector cut at consecutive pointers
(the common body of `_rowslice` and `_colslice`). -/
def slicesAt {α : Type} (ptr : List ℕ) (v : List α) : List (List α) :=
  (ptr.zip ptr.tail).map (fun ab => pySlice v ab.1 ab.2)

/-- `BeliefMWM._rowslice`. -/
def CSR.rowslice {α : Type} (W : CSR) (v : List α) : List (List α) :=
  slicesAt W.indptr v

/-- `BeliefMWM._init_indices`: `self._tocol` (stable argsort of the column
index array). -/
def CSR.tocol (W : CSR) : List ℕ := argsort W.indices

/-- `BeliefMWM._init_indices`: `self._torow` (stable argsort of `tocol`). -/
def CSR.torow (W : CSR) : List ℕ := argsort W.tocol

/-- `BeliefMWM._init_indices`: `self._colmap`. -/
def CSR.colmap (W : CSR) : List ℕ := 0 :: cumsum (bincount W.indices)

/-- `BeliefMWM._colslice`. -/
def CSR.colslice (W : CSR) (v : List ℚ) : List (List ℚ) :=
  slicesAt W.colmap (gather v W.tocol)

/-- `BeliefMWM._othermax_`: leave-one-out maximum inside one slice. -/
def othermax (v : List ℚ) : List ℚ :=
  if v.length ≤ 1 then List.replicate v.length 0
  else
    let s := argsort v
    let max2 := s.getD (s.length - 2) 0
    let max1 := s.getD (s.length - 1) 0
    (List.replicate v.length (v.getD max1 0)).set max1 (v.getD max2 0)

/-- `BeliefMWM._other_rowmax`. -/
def CSR.otherRowmax (W : CSR) (v : List ℚ) : List ℚ :=
  ((W.rowslice v).map othermax).flatten

/-- `BeliefMWM._other_colmax`. -/
def CSR.otherColmax (W : CSR) (v : List ℚ) : List ℚ :=
  gather (((W.colslice v).map othermax).flatten) W.torow

/-! ## The `BeliefMWM` solver -/

/-- Mutable state of a `BeliefMWM` object: the two message vectors, the
per-edge match indicator and the history of objective values. -/
structure MWMState where
  x : List ℚ
  y : List ℚ
  mates : List Bool
  objective : List ℚ

/-- `BeliefMWM._init_messages`: `x = y = weights.data`. -/
def initMessages (W : CSR) : MWMState :=
  { x := W.data, y := W.data, mates := [], objective := [] }

/-- `BeliefMWM._objective`: `self.weights[self.mates].sum()`. -/
def objectiveMWM (W : CSR) (mates : List Bool) : ℚ :=
  (maskSelect W.data mates).sum

/-- `BeliefMWM._update_messages`. -/
def stepMWM (W : CSR) (s : MWMState) : MWMState :=
  let x := (W.data.zip (W.otherRowmax s.y)).map (fun p => p.1 - max 0 p.2)
  let y := (W.data.zip (W.otherColmax x)).map (fun p => p.1 - max 0 p.2)
  let mates := ((x.zip y).zip W.data).map (fun p => decide (p.1.1 + p.1.2 - p.2 > 0))
  { x := x, y := y, mates := mates, objective := s.objective ++ [objectiveMWM W mates] }

/-- One row of `BeliefMWM.matching`: `row_match`. -/
def rowMatch (rowmates : List Bool) (colidx : List ℕ) : Option ℕ :=
  if xorReduce rowmates = false then none
  else (maskSelect colidx rowmates).head?

/-- `BeliefMWM.matching`: `list(enumerate(map(row_match, ...)))`. -/
def matching (W : CSR) (mates : List Bool) : List (ℕ × Option ℕ) :=
  (((W.rowslice mates).zip (W.rowslice W.indices)).map
    (fun p => rowMatch p.1 p.2)).enum

/-- `BeliefMWM._converged` (with the default `m = 5`, `w = 50`): returns the
number of extra iterations (`self._converged_iter`) on convergence. -/
def convergedCheck (obj : List ℚ) : Option ℕ :=
  let m := 5
  let w := 50
  let patterns := pySliceNeg obj w m
  match obj.getLast? with
  | none => none
  | some actual =>
    if actual ∈ patterns then
      let pivot := patterns.reverse.findIdx (fun v => v == actual) + m
      if pySliceNeg obj (2 * pivot) pivot = lastN obj pivot then
        some (npArgmax (lastN obj pivot) + 1)
      else none
    else none

/-- The inner `for _ in range(self._converged_iter)` loop of
`BeliefMWM.compute_matching`: runs `k` more updates, collecting the yielded
iteration numbers. -/
def extraIters (W : CSR) : ℕ → MWMState → ℕ → List ℕ × MWMState × ℕ
  | 0, s, niter => ([], s, niter)
  | k + 1, s, niter =>
    let s1 := stepMWM W s
    let rest := extraIters W k s1 (niter + 1)
    ((niter + 1) :: rest.1, rest.2)

/-- `BeliefMWM.compute_matching`, as the list of yielded iteration numbers
together with the final state (`fuel` is the remaining trip count of the
`for _ in range(maxiter)` loop). -/
def computeAux (W : CSR) : ℕ → MWMState → ℕ → ℕ → List ℕ × MWMState
  | 0, s, _, _ => ([], s)
  | fuel + 1, s, niter, maxiter =>
    let s1 := stepMWM W s
    match convergedCheck s1.objective with
    | some k =>
      let ex := extraIters W k s1 (niter + 1)
      ((niter + 1) :: (ex.1 ++ [maxiter]), ex.2.1)
    | none =>
      let rest := computeAux W fuel s1 (niter + 1) maxiter
      ((niter + 1) :: rest.1, rest.2)

/-- `BeliefMWM.compute_matching(maxiter)` started from a fresh solver. -/
def computeMatching (W : CSR) (maxiter : ℕ) : List ℕ × MWMState :=
  computeAux W maxiter (initMessages W) 0 maxiter

/-- `BeliefMWM._checkmatrix` on an already-CSR input: the bipartite
completeness test (`matrix.getnnz(0).all() and matrix.getnnz(1).all()`).
The negative-weight check announced by the docstring is a `.. todo::` and is
absent from the code. -/
def checkmatrix (W : CSR) : Except String CSR :=
  if ((List.range W.ncols).map (fun c => W.indices.count c)).all (fun k => k ≠ 0) ∧
     ((W.indptr.zip W.indptr.tail).map (fun ab => ab.2 - ab.1)).all (fun k => k ≠ 0) then
    Except.ok W
  else
    Except.error "Incomplete bipartite, (isolated nodes)"

/-! ## The `BeliefNAQP` solver -/

/-- The squares matrix `self.s`: a boolean CSR of shape `E × E` whose stored
entries are all `True`; only its (symmetric, duplicate-free) set of stored
positions matters. -/
structure SqMat where
  pat : List (ℕ × ℕ)

/-- Mutable state of a `BeliefNAQP` object.  The sparse matrix `self.z`
(pattern of `self.s`) is kept as its entrywise value function. -/
structure NAQPState where
  x : List ℚ
  y : List ℚ
  z : ℕ → ℕ → ℚ
  mates : List Bool
  objective : List ℚ

/-- `zclip = self.z.copy().T; zclip.data = np.clip(zclip.data + beta, 0, beta)`:
the transpose of `z` with values clipped into `[0, beta]` on the transposed
pattern. -/
def zclipF (beta : ℚ) (Q : SqMat) (z : ℕ → ℕ → ℚ) : ℕ → ℕ → ℚ :=
  fun r c => if (c, r) ∈ Q.pat then min (max (z c r + beta) 0) beta else 0

/-- `zclip.sum(1).getA1()` at row `e`: the sum of the stored entries of row
`e` of `zclip` (stored positions of `zclip` = transposed pattern of `Q`). -/
def zclipRowSum (beta : ℚ) (Q : SqMat) (z : ℕ → ℕ → ℚ) (e : ℕ) : ℚ :=
  ((Q.pat.filter (fun p => p.2 == e)).map (fun p => zclipF beta Q z e p.1)).sum

/-- `BeliefNAQP.numsquares`: `self.s[self.mates][:, self.mates].nnz / 2`. -/
def numsquares (Q : SqMat) (mates : List Bool) : ℚ :=
  ((Q.pat.filter
      (fun p => mates.getD p.1 false && mates.getD p.2 false)).length : ℚ) / 2

/-- `BeliefNAQP._objective`. -/
def objectiveNAQP (W : CSR) (Q : SqMat) (beta : ℚ) (mates : List Bool) : ℚ :=
  objectiveMWM W mates + beta * numsquares Q mates

/-- `BeliefNAQP` construction: the weights are `alpha * weights` (handled by
passing the scaled `W`), and `self.z = self.s.astype(float)` (value `1` on
every stored position of the squares matrix). -/
def initNAQP (W : CSR) (Q : SqMat) : NAQPState :=
  { x := W.data, y := W.data,
    z := fun r c => if (r, c) ∈ Q.pat then 1 else 0,
    mates := [], objective := [] }

/-- `BeliefNAQP._update_messages`.  The stored values of `self.s` are all
`1`, so `diags(mxyz).dot(self.s)` has entry `mxyz[r]` at each stored
position `(r, c)`. -/
def stepNAQP (W : CSR) (Q : SqMat) (beta : ℚ) (s : NAQPState) : NAQPState :=
  let zclip := zclipF beta Q s.z
  let mz := (List.range W.E).map (fun e => W.data.getD e 0 + zclipRowSum beta Q s.z e)
  let x := (mz.zip (W.otherRowmax s.y)).map (fun p => p.1 - max 0 p.2)
  let y := (mz.zip (W.otherColmax x)).map (fun p => p.1 - max 0 p.2)
  let mxyz := ((x.zip y).zip mz).map (fun p => p.1.1 + p.1.2 - p.2)
  let z := fun r c => if (r, c) ∈ Q.pat then mxyz.getD r 0 - zclip r c else 0
  let mates := mxyz.map (fun v => decide (v ≥ 0))
  { x := x, y := y, z := z, mates := mates,
    objective := s.objective ++ [objectiveNAQP W Q beta mates] }

/-! ## The matcher: sparsifier and refiner -/

/-- Python 3 `round` (round-half-to-even) on an exact rational. -/
def pyRound (q : ℚ) : ℤ :=
  if q - ⌊q⌋ < 1 / 2 then ⌊q⌋
  else if 1 / 2 < q - ⌊q⌋ then ⌊q⌋ + 1
  else if 2 ∣ ⌊q⌋ then ⌊q⌋ else ⌊q⌋ + 1

/-- A dense similarity matrix, row-major. -/
structure DenseMat where
  rows : List (List ℚ)

/-- `self.sim_matrix.size`. -/
def DenseMat.size (S : DenseMat) : ℕ := (S.rows.map List.length).sum

/-- Row-major flattening (`axis=None` view). -/
def DenseMat.flat (S : DenseMat) : List ℚ := S.rows.flatten

/-- Modelled from the spec: the documented contract of the external
`np.partition(a, kth)` kernel (not part of this repository).  The result is
a permutation of `a` whose element at index `kth` stands in its final sorted
position; every element before it is `≤` it and every element after it is
`≥` it.  The order inside the two sides is left unspecified, so many output
lists satisfy the contract for the same input. -/
def isPartitionedAt (a res : List ℚ) (kth : ℕ) : Prop :=
  List.Perm res a ∧
  res.getD kth 0 = (List.insertionSort (· ≤ ·) a).getD kth 0 ∧
  (∀ i, i < kth → res.getD i 0 ≤ res.getD kth 0) ∧
  (∀ j, j < res.length → kth < j → res.getD kth 0 ≤ res.getD j 0)

/-- `Matcher._compute_sparse_sim_matrix` with `sparse_row = False`, reduced
to the kept-entry mask (the sparse matrix stores exactly the masked entries
of `S`).  The external `np.partition` kernel is passed in as `partF a kth`;
the code calls it with `kth = ratio - 1` and then reads the element at index
`ratio`, one past the partition point. -/
def sparseSimMask (partF : List ℚ → ℕ → List ℚ) (S : DenseMat)
    (sparsityRatio : ℚ) : List (List Bool) :=
  let ratio := (pyRound (sparsityRatio * S.size)).toNat
  if ratio = 0 then
    S.rows.map (fun row => row.map (fun v => decide (v ≠ 0)))
  else if ratio = S.size then
    S.rows.map (fun row => row.map (fun v => decide (v ≥ listMax row)))
  else
    let threshold0 := (partF S.flat (ratio - 1)).getD ratio 0
    let threshold := if threshold0 = 0 then threshold0 + 1 / 100000000 else threshold0
    S.rows.map (fun row => row.map (fun v => decide (v ≥ threshold)))

/-- The sparsifier mask as the claim words it: `τ` is `partition(S.flat, k-1)`
read at the partition point, i.e. the `k`-th smallest element of the
flattening (index `k - 1` in sorted order), with the zero bump. -/
def claimSparseMask (S : DenseMat) (sparsityRatio : ℚ) : List (List Bool) :=
  let ratio := (pyRound (sparsityRatio * S.size)).toNat
  let sortedFlat := List.insertionSort (· ≤ ·) S.flat
  let threshold0 := sortedFlat.getD (ratio - 1) 0
  let threshold := if threshold0 = 0 then threshold0 + 1 / 100000000 else threshold0
  S.rows.map (fun row => row.map (fun v => decide (v ≥ threshold)))

/-- The scored sparse matrix handed to `Matcher.refine`, reduced to its
shape and entrywise values (zero = not stored). -/
structure ScoreMat where
  n : ℕ
  m : ℕ
  val : ℕ → ℕ → ℚ

/-- `solve_linear_assignment`.  The external Jonker-Volgenant kernel
`lapjv` is not part of this repository; it is passed in as `lapF size cost`,
returning the column assigned to each row of the padded square cost matrix.
Modelled from the spec: §4.6 step 4 (pad to the larger dimension, invoke
Jonker-Volgenant, retain the first `min` assignments). -/
def solveLinearAssignment (lapF : ℕ → (ℕ → ℕ → ℚ) → List ℕ)
    (n m : ℕ) (cost : ℕ → ℕ → ℚ) : List ℕ × List ℕ :=
  if n > m then
    let full := fun i j => if i < m then cost j i else 0
    ((lapF n full).take m, List.range m)
  else
    let full := fun i j => if i < n then cost i j else 0
    (List.range n, (lapF m full).take n)

/-- `primary_missing = np.setdiff1d(range(n), primary)` (sorted complement). -/
def primaryMissing (score : ScoreMat) (mapping : List ℕ × List ℕ) : List ℕ :=
  (List.range score.n).filter (fun i => decide (i ∉ mapping.1))

/-- `secondary_missing = np.setdiff1d(range(m), secondary)`. -/
def secondaryMissing (score : ScoreMat) (mapping : List ℕ × List ℕ) : List ℕ :=
  (List.range score.m).filter (fun j => decide (j ∉ mapping.2))

/-- The residual LAP cost matrix: `1000000` where the residual score matrix
stores nothing, `-score` on its stored (nonzero) entries. -/
def lapScores (score : ScoreMat) (mapping : List ℕ × List ℕ) : ℕ → ℕ → ℚ :=
  fun i j =>
    if score.val ((primaryMissing score mapping).getD i 0)
        ((secondaryMissing score mapping).getD j 0) = 0 then 1000000
    else -(score.val ((primaryMissing score mapping).getD i 0)
        ((secondaryMissing score mapping).getD j 0))

/-- `Matcher.refine`. -/
def refine (lapF : ℕ → (ℕ → ℕ → ℚ) → List ℕ) (score : ScoreMat)
    (mapping : List ℕ × List ℕ) : List ℕ × List ℕ :=
  if mapping.1.length = min score.n score.m then mapping
  else
    let ass := solveLinearAssignment lapF (primaryMissing score mapping).length
      (secondaryMissing score mapping).length (lapScores score mapping)
    (mapping.1 ++ gather (primaryMissing score mapping) ass.1,
     mapping.2 ++ gather (secondaryMissing score mapping) ass.2)

/-! ## Lemmas about `argsort` -/

theorem argsort_perm {α : Type} [Inhabited α] [LinearOrder α] (v : List α) :
    List.Perm (argsort v) (List.range v.length) :=
  List.perm_insertionSort _ _

theorem argsort_length {α : Type} [Inhabited α] [LinearOrder α] (v : List α) :
    (argsort v).length = v.length := by
  rw [(argsort_perm v).length_eq, List.length_range]

theorem argsort_nodup {α : Type} [Inhabited α] [LinearOrder α] (v : List α) :
    (argsort v).Nodup :=
  ((argsort_perm v).nodup_iff).mpr (List.nodup_range _)

theorem mem_argsort {α : Type} [Inhabited α] [LinearOrder α] {v : List α} {i : ℕ} :
    i ∈ argsort v ↔ i < v.length := by
  rw [(argsort_perm v).mem_iff, List.mem_range]

theorem argsort_sorted {α : Type} [Inhabited α] [LinearOrder α] (v : List α) :
    (argsort v).Pairwise (fun i j => v.getD i default ≤ v.getD j default) := by
  haveI ht : IsTotal ℕ (fun i j => v.getD i default ≤ v.getD j default) :=
    ⟨fun a b => le_total _ _⟩
  haveI htr : IsTrans ℕ (fun i j => v.getD i default ≤ v.getD j default) :=
    ⟨fun a b c hab hbc => le_trans hab hbc⟩
  exact List.sorted_insertionSort _ _

theorem map_getD_range {α : Type} [Inhabited α] (l : List α) :
    (List.range l.length).map (fun i => l.getD i default) = l := by
  apply List.ext_getElem
  · simp
  · intro n h1 h2
    simp only [List.getElem_map, List.getElem_range]
    exact List.getD_eq_getElem l default h2

/-- The values of `v` read off in `argsort` order: the stable ascending sort
of `v`. -/
def sortedVals {α : Type} [Inhabited α] [LinearOrder α] (v : List α) : List α :=
  (argsort v).map (fun i => v.getD i default)

theorem sortedVals_perm {α : Type} [Inhabited α] [LinearOrder α] (v : List α) :
    List.Perm (sortedVals v) v := by
  have h := (argsort_perm v).map (fun i => v.getD i default)
  rwa [map_getD_range] at h

theorem sortedVals_length {α : Type} [Inhabited α] [LinearOrder α] (v : List α) :
    (sortedVals v).length = v.length :=
  (sortedVals_perm v).length_eq

theorem sortedVals_sorted {α : Type} [Inhabited α] [LinearOrder α] (v : List α) :
    (sortedVals v).Pairwise (· ≤ ·) :=
  (argsort_sorted v).map _ (fun _ _ h => h)

theorem sortedVals_getD {α : Type} [Inhabited α] [LinearOrder α] (v : List α)
    (k : ℕ) (hk : k < v.length) :
    (sortedVals v).getD k default = v.getD ((argsort v).getD k 0) default := by
  have hk1 : k < (argsort v).length := by rw [argsort_length]; exact hk
  have hk2 : k < (sortedVals v).length := by rw [sortedVals_length]; exact hk
  rw [List.getD_eq_getElem _ _ hk2, List.getD_eq_getElem _ _ hk1]
  simp only [sortedVals]
  rw [List.getElem_map]

/-! ## Lemmas about `listMax` -/

theorem le_foldl_max_init (t : List ℚ) (a : ℚ) : a ≤ t.foldl max a := by
  induction t generalizing a with
  | nil => simp
  | cons b t ih => exact le_trans (le_max_left a b) (ih (max a b))

theorem foldl_max_mem (t : List ℚ) (a : ℚ) : t.foldl max a ∈ a :: t := by
  induction t generalizing a with
  | nil => simp
  | cons b t ih =>
    have h := ih (max a b)
    simp only [List.foldl_cons, List.mem_cons]
    rcases List.mem_cons.mp h with h1 | h1
    · rcases max_choice a b with h2 | h2
      · exact Or.inl (h1.trans h2)
      · exact Or.inr (Or.inl (h1.trans h2))
    · exact Or.inr (Or.inr h1)

theorem le_foldl_max (t : List ℚ) (a x : ℚ) (hx : x ∈ a :: t) :
    x ≤ t.foldl max a := by
  induction t generalizing a with
  | nil =>
    simp only [List.mem_singleton] at hx
    simp [hx]
  | cons b t ih =>
    simp only [List.foldl_cons]
    rcases List.mem_cons.mp hx with rfl | h
    · exact le_trans (le_max_left x b) (le_foldl_max_init t (max x b))
    · rcases List.mem_cons.mp h with rfl | h1
      · exact le_trans (le_max_right a x) (le_foldl_max_init t (max a x))
      · exact ih (max a b) (List.mem_cons_of_mem _ h1)

theorem listMax_mem {v : List ℚ} (h : v ≠ []) : listMax v ∈ v := by
  match v with
  | a :: t => exact foldl_max_mem t a

theorem le_listMax {v : List ℚ} {x : ℚ} (hx : x ∈ v) : x ≤ listMax v := by
  match v with
  | a :: t => exact le_foldl_max t a x hx

/-! ## Counting helpers -/

theorem count_take_drop {α : Type} [BEq α] (l : List α) (j : ℕ) (a : α) :
    l.count a = (l.take j).count a + (l.drop j).count a := by
  conv_lhs => rw [← List.take_append_drop j l]
  exact List.count_append _ _ _

theorem two_le_count_of_getD_eq (l : List ℚ) (i j : ℕ) (hij : i < j)
    (hj : j < l.length) (he : l.getD i 0 = l.getD j 0) :
    2 ≤ l.count (l.getD i 0) := by
  have hi : i < l.length := lt_trans hij hj
  have hi2 : i < (l.take j).length := by
    rw [List.length_take]; omega
  have h0 : 0 < (l.drop j).length := by rw [List.length_drop]; omega
  have h1 : l.getD i 0 ∈ l.take j := by
    rw [List.getD_eq_getElem _ _ hi]
    exact List.mem_iff_getElem.mpr ⟨i, hi2, List.getElem_take l⟩
  have h2 : l.getD i 0 ∈ l.drop j := by
    rw [he, List.getD_eq_getElem _ _ hj]
    exact List.mem_iff_getElem.mpr ⟨0, h0, by simp [List.getElem_drop]⟩
  have hc1 : 0 < (l.take j).count (l.getD i 0) := List.count_pos_iff_mem.mpr h1
  have hc2 : 0 < (l.drop j).count (l.getD i 0) := List.count_pos_iff_mem.mpr h2
  have hc := count_take_drop l j (l.getD i 0)
  omega

theorem count_getD_last_eq_one (l : List ℚ) (h2 : 2 ≤ l.length)
    (hs : l.Pairwise (· ≤ ·))
    (hlt : l.getD (l.length - 2) 0 < l.getD (l.length - 1) 0) :
    l.count (l.getD (l.length - 1) 0) = 1 := by
  have hn1 : l.length - 1 < l.length := by omega
  have hdroplen : (l.drop (l.length - 1)).length = 1 := by
    rw [List.length_drop]; omega
  have hdrop : l.drop (l.length - 1) = [l.getD (l.length - 1) 0] := by
    apply List.ext_getElem
    · simp [hdroplen]
    · intro k hk1 hk2
      have hk0 : k = 0 := by
        rw [hdroplen] at hk1; omega
      subst hk0
      rw [List.getElem_drop]
      simp only [List.getElem_singleton]
      rw [List.getD_eq_getElem _ _ hn1]
      simp
  have hcd : (l.drop (l.length - 1)).count (l.getD (l.length - 1) 0) = 1 := by
    rw [hdrop]; simp
  have hnot : l.getD (l.length - 1) 0 ∉ l.take (l.length - 1) := by
    intro hmem
    obtain ⟨k, hk, hke⟩ := List.mem_iff_getElem.mp hmem
    have hk1 : k < l.length - 1 := by
      rw [List.length_take] at hk; omega
    have hkl : k < l.length := by omega
    have hkv : l[k] = l.getD (l.length - 1) 0 := by
      rw [← hke]
      exact (List.getElem_take l).symm
    have hle : l[k] ≤ l.getD (l.length - 2) 0 := by
      rcases Nat.lt_or_ge k (l.length - 2) with hlt2 | hge
      · rw [List.getD_eq_getElem _ _ (show l.length - 2 < l.length by omega)]
        exact List.pairwise_iff_getElem.mp hs k (l.length - 2) hkl (by omega) hlt2
      · have : k = l.length - 2 := by omega
        subst this
        rw [List.getD_eq_getElem _ _ hkl]
    rw [hkv] at hle
    exact absurd (lt_of_le_of_lt hle hlt) (lt_irrefl _)
  have hct : (l.take (l.length - 1)).count (l.getD (l.length - 1) 0) = 0 :=
    List.count_eq_zero.mpr hnot
  have hc := count_take_drop l (l.length - 1) (l.getD (l.length - 1) 0)
  omega

/-- Setting an entry of a constant list to the same constant is a no-op. -/
theorem set_replicate_self {α : Type} (n i : ℕ) (c : α) :
    (List.replicate n c).set i c = List.replicate n c := by
  apply List.ext_getElem
  · simp
  · intro k h1 h2
    rw [List.getElem_set]
    split <;> simp

/-! ## Claim C4: the leave-one-out maximum -/

/-- The spec's description of `_othermax_` (C4): for length `≥ 2` the result
is the maximum `max1` everywhere, except at the (first) index attaining
`max1`, where it is the second maximum `max2`; for length `1` it is `[0]`. -/
def specOthermax (v : List ℚ) : List ℚ :=
  if v.length ≤ 1 then List.replicate v.length 0
  else
    (List.replicate v.length (listMax v)).set (v.indexOf (listMax v))
      (listMax (v.erase (listMax v)))

theorem othermax_unfold (v : List ℚ) (h : 2 ≤ v.length) :
    othermax v = (List.replicate v.length
        (v.getD ((argsort v).getD (v.length - 1) 0) 0)).set
      ((argsort v).getD (v.length - 1) 0)
      (v.getD ((argsort v).getD (v.length - 2) 0) 0) := by
  unfold othermax
  rw [if_neg (by omega)]
  simp only [argsort_length]

theorem listMax_eq_sortedVals_last (v : List ℚ) (h : 1 ≤ v.length) :
    listMax v = (sortedVals v).getD (v.length - 1) 0 := by
  have hsvlen : (sortedVals v).length = v.length := sortedVals_length v
  have hlast : v.length - 1 < (sortedVals v).length := by omega
  have hmem : (sortedVals v).getD (v.length - 1) 0 ∈ v := by
    rw [List.getD_eq_getElem _ _ hlast]
    exact (sortedVals_perm v).subset (List.getElem_mem hlast)
  have hub : ∀ x ∈ v, x ≤ (sortedVals v).getD (v.length - 1) 0 := by
    intro x hx
    have hx2 : x ∈ sortedVals v := ((sortedVals_perm v).mem_iff).mpr hx
    obtain ⟨k, hk, hke⟩ := List.mem_iff_getElem.mp hx2
    rcases Nat.lt_or_ge k (v.length - 1) with hklt | hkge
    · have := List.pairwise_iff_getElem.mp (sortedVals_sorted v) k (v.length - 1)
        hk hlast hklt
      rw [List.getD_eq_getElem _ _ hlast, ← hke]
      exact this
    · have hkeq : k = v.length - 1 := by omega
      subst hkeq
      rw [List.getD_eq_getElem _ _ hlast, ← hke]
  have hne : v ≠ [] := by
    intro hv
    rw [hv] at h
    simp at h
  exact le_antisymm (hub _ (listMax_mem hne)) (le_listMax hmem)

/-- **C4.**  For every slice `v`: length-1 slices give `[0]`, and for length
`≥ 2` the code's `_othermax_` equals the spec's description (the maximum
everywhere, the second maximum at the first index attaining the maximum;
for a tied maximum both coincide and the output is constant). -/
theorem othermax_eq_specOthermax (v : List ℚ) : othermax v = specOthermax v := by
  by_cases hlen : v.length ≤ 1
  · unfold othermax specOthermax
    rw [if_pos hlen, if_pos hlen]
  · push_neg at hlen
    have hn : 2 ≤ v.length := hlen
    have hslen : (argsort v).length = v.length := argsort_length v
    have hsvlen : (sortedVals v).length = v.length := sortedVals_length v
    have hb1 : v.length - 1 < (argsort v).length := by omega
    have ha1 : v.length - 2 < (argsort v).length := by omega
    have hsvb : v.length - 1 < (sortedVals v).length := by omega
    have hsva : v.length - 2 < (sortedVals v).length := by omega
    -- code's top-two indices
    have hvb : v.getD ((argsort v).getD (v.length - 1) 0) 0 =
        (sortedVals v).getD (v.length - 1) 0 :=
      (sortedVals_getD v (v.length - 1) (by omega)).symm
    have hva : v.getD ((argsort v).getD (v.length - 2) 0) 0 =
        (sortedVals v).getD (v.length - 2) 0 :=
      (sortedVals_getD v (v.length - 2) (by omega)).symm
    have hM : listMax v = (sortedVals v).getD (v.length - 1) 0 :=
      listMax_eq_sortedVals_last v (by omega)
    have hcode := othermax_unfold v hn
    unfold specOthermax
    rw [if_neg (by omega)]
    rcases eq_or_lt_of_le
        (show (sortedVals v).getD (v.length - 2) 0 ≤
          (sortedVals v).getD (v.length - 1) 0 from by
          rcases Nat.lt_or_ge (v.length - 2) (v.length - 1) with hlt | hge
          · rw [List.getD_eq_getElem _ _ hsva, List.getD_eq_getElem _ _ hsvb]
            exact List.pairwise_iff_getElem.mp (sortedVals_sorted v) _ _ hsva hsvb hlt
          · have : v.length - 2 = v.length - 1 := by omega
            rw [this]) with htie | huniq
    · -- tied maximum: both sides are the constant list
      have hcount2 : 2 ≤ v.count (listMax v) := by
        have h1 := two_le_count_of_getD_eq (sortedVals v) (v.length - 2)
          (v.length - 1) (by omega) hsvb htie
        rw [htie, ← hM] at h1
        rwa [(sortedVals_perm v).count_eq] at h1
      have hmerase : listMax v ∈ v.erase (listMax v) := by
        apply List.count_pos_iff_mem.mp
        rw [List.count_erase_self]
        omega
      have hub : ∀ x ∈ v.erase (listMax v), x ≤ listMax v := by
        intro x hx
        exact le_listMax (List.erase_subset _ _ hx)
      have hM2 : listMax (v.erase (listMax v)) = listMax v := by
        have hne : v.erase (listMax v) ≠ [] := by
          intro h0
          rw [h0] at hmerase
          simp at hmerase
        exact le_antisymm (hub _ (listMax_mem hne)) (le_listMax hmerase)
      rw [hcode, hvb, hva, htie, ← hM, hM2, set_replicate_self, set_replicate_self]
    · -- unique maximum
      have hsvcount : (sortedVals v).count ((sortedVals v).getD
          ((sortedVals v).length - 1) 0) = 1 := by
        apply count_getD_last_eq_one (sortedVals v) (by omega) (sortedVals_sorted v)
        rw [hsvlen]
        exact huniq
      rw [hsvlen] at hsvcount
      have hcount1 : v.count (listMax v) = 1 := by
        rw [hM, ← (sortedVals_perm v).count_eq]
        exact hsvcount
      have hMmem : listMax v ∈ v := listMax_mem (by
        intro hv
        rw [hv] at hn
        simp at hn)
      have hidx : v.indexOf (listMax v) < v.length := List.indexOf_lt_length.mpr hMmem
      have hvidx : v.getD (v.indexOf (listMax v)) 0 = listMax v := by
        rw [List.getD_eq_getElem _ _ hidx]
        exact List.getElem_indexOf hidx
      have hbmem : (argsort v).getD (v.length - 1) 0 < v.length := by
        have : (argsort v).getD (v.length - 1) 0 ∈ argsort v := by
          rw [List.getD_eq_getElem _ _ hb1]
          exact List.getElem_mem hb1
        exact mem_argsort.mp this
      have hvbM : v.getD ((argsort v).getD (v.length - 1) 0) 0 = listMax v := by
        rw [hvb, hM]
      -- the two indices agree because the maximum is unique
      have hbi : (argsort v).getD (v.length - 1) 0 = v.indexOf (listMax v) := by
        by_contra hne
        rcases Nat.lt_or_ge ((argsort v).getD (v.length - 1) 0)
            (v.indexOf (listMax v)) with ho | ho
        · have h2 := two_le_count_of_getD_eq v _ _ ho hidx
            (by rw [hvbM, hvidx])
          rw [hvbM] at h2
          omega
        · have ho2 : v.indexOf (listMax v) < (argsort v).getD (v.length - 1) 0 := by
            omega
          have h2 := two_le_count_of_getD_eq v _ _ ho2 hbmem
            (by rw [hvbM, hvidx])
          rw [hvidx] at h2
          omega
      -- the second maximum is the second-to-last sorted value
      have hcne : (sortedVals v).getD (v.length - 2) 0 ≠ listMax v := by
        rw [hM]
        exact ne_of_lt huniq
      have hcmem : (sortedVals v).getD (v.length - 2) 0 ∈ v := by
        rw [List.getD_eq_getElem _ _ hsva]
        exact (sortedVals_perm v).subset (List.getElem_mem hsva)
      have hcer : (sortedVals v).getD (v.length - 2) 0 ∈ v.erase (listMax v) := by
        apply List.count_pos_iff_mem.mp
        rw [List.count_erase_of_ne hcne]
        exact List.count_pos_iff_mem.mpr hcmem
      have hub : ∀ x ∈ v.erase (listMax v), x ≤ (sortedVals v).getD (v.length - 2) 0 := by
        intro x hx
        have hxne : x ≠ listMax v := by
          intro hxe
          subst hxe
          have := List.count_pos_iff_mem.mpr hx
          rw [List.count_erase_self] at this
          omega
        have hxv : x ∈ v := List.erase_subset _ _ hx
        have hxsv : x ∈ sortedVals v := ((sortedVals_perm v).mem_iff).mpr hxv
        obtain ⟨k, hk, hke⟩ := List.mem_iff_getElem.mp hxsv
        have hkne : k ≠ v.length - 1 := by
          intro hkeq
          apply hxne
          subst hkeq
          rw [hM, List.getD_eq_getElem _ _ hsvb]
          exact hke.symm
        rcases Nat.lt_or_ge k (v.length - 2) with hklt | hkge
        · rw [List.getD_eq_getElem _ _ hsva, ← hke]
          exact List.pairwise_iff_getElem.mp (sortedVals_sorted v) _ _ hk hsva hklt
        · have hkeq : k = v.length - 2 := by
            rw [hsvlen] at hk
            omega
          subst hkeq
          rw [List.getD_eq_getElem _ _ hsva, ← hke]
      have hM2 : listMax (v.erase (listMax v)) = (sortedVals v).getD (v.length - 2) 0 := by
        have hne : v.erase (listMax v) ≠ [] := by
          intro h0
          rw [h0] at hcer
          simp at hcer
        exact le_antisymm (hub _ (listMax_mem hne)) (le_listMax hcer)
      rw [hcode, hvb, hva, ← hM, hbi, hM2]

/-! ## Length lemmas for the message updates -/

theorem othermax_length (v : List ℚ) : (othermax v).length = v.length := by
  unfold othermax
  split <;> simp

theorem chain_le_getLast (l : List ℕ) (h : l.Chain' (· ≤ ·)) :
    ∀ p ∈ l, p ≤ l.getLast?.getD 0 := by
  induction l with
  | nil => intro p hp; simp at hp
  | cons a t ih =>
    intro p hp
    match t with
    | [] =>
      simp only [List.mem_singleton] at hp
      subst hp
      simp
    | b :: t2 =>
      have hab : a ≤ b := (List.chain'_cons.mp h).1
      have ht : (b :: t2).Chain' (· ≤ ·) := (List.chain'_cons.mp h).2
      rw [List.getLast?_cons_cons]
      rcases List.mem_cons.mp hp with rfl | hp2
      · exact le_trans hab (ih ht b (by simp))
      · exact ih ht p hp2

theorem slicesAt_flatten_length {α : Type} (v : List α) (ptr : List ℕ)
    (hch : ptr.Chain' (· ≤ ·)) (hub : ∀ p ∈ ptr, p ≤ v.length) :
    ((slicesAt ptr v).map List.length).sum
      = ptr.getLast?.getD 0 - ptr.head?.getD 0 := by
  induction ptr with
  | nil => simp [slicesAt]
  | cons a t ih =>
    match t with
    | [] => simp [slicesAt]
    | b :: t2 =>
      have hstep : slicesAt (a :: b :: t2) v = pySlice v a b :: slicesAt (b :: t2) v := by
        unfold slicesAt
        simp
      have hab : a ≤ b := (List.chain'_cons.mp hch).1
      have ht : (b :: t2).Chain' (· ≤ ·) := (List.chain'_cons.mp hch).2
      have hbv : b ≤ v.length := hub b (by simp)
      have hslice : (pySlice v a b).length = b - a := by
        unfold pySlice
        rw [List.length_drop, List.length_take]
        omega
      have hrec := ih ht (fun p hp => hub p (List.mem_cons_of_mem _ hp))
      rw [hstep, List.map_cons, List.sum_cons, hslice, hrec]
      have hblast : b ≤ (b :: t2).getLast?.getD 0 := chain_le_getLast _ ht b (by simp)
      rw [List.getLast?_cons_cons]
      simp only [List.head?_cons, Option.getD_some]
      omega

theorem otherRowmax_length (W : CSR) (hW : W.Wf) (v : List ℚ)
    (hv : v.length = W.E) : (W.otherRowmax v).length = W.E := by
  obtain ⟨h1, h2, h3, h4, h5, h6, h7⟩ := hW
  unfold CSR.otherRowmax CSR.rowslice
  rw [List.length_flatten, List.map_map]
  have heq : List.map (List.length ∘ othermax) (slicesAt W.indptr v)
      = List.map List.length (slicesAt W.indptr v) :=
    List.map_congr_left (fun l _ => by simp [othermax_length])
  rw [heq, slicesAt_flatten_length v W.indptr h4.chain'
      (fun p hp => by rw [hv]; exact h5 p hp), h3, h2]
  simp

theorem otherColmax_length (W : CSR) (hW : W.Wf) (v : List ℚ) :
    (W.otherColmax v).length = W.E := by
  unfold CSR.otherColmax gather CSR.torow CSR.tocol
  rw [List.length_map, argsort_length, argsort_length]
  exact hW.right.right.right.right.right.left

/-! ## Pointwise reading of the numpy elementwise operations -/

theorem getD_map_zip_sub (u w : List ℚ) (e : ℕ) (he : e < u.length)
    (hle : u.length ≤ w.length) :
    ((u.zip w).map (fun p => p.1 - max 0 p.2)).getD e 0
      = u.getD e 0 - max 0 (w.getD e 0) := by
  have he2 : e < w.length := lt_of_lt_of_le he hle
  have hz : e < ((u.zip w).map (fun p => p.1 - max 0 p.2)).length := by
    rw [List.length_map, List.length_zip]
    omega
  rw [List.getD_eq_getElem _ _ hz, List.getD_eq_getElem _ _ he,
    List.getD_eq_getElem _ _ he2, List.getElem_map, List.getElem_zip]

theorem getD_mates_map (x y d : List ℚ) (e : ℕ) (hex : e < x.length)
    (hey : e < y.length) (hed : e < d.length) :
    (((x.zip y).zip d).map (fun p => decide (p.1.1 + p.1.2 - p.2 > 0))).getD e false
      = decide (x.getD e 0 + y.getD e 0 - d.getD e 0 > 0) := by
  have hz : e < (((x.zip y).zip d).map
      (fun p => decide (p.1.1 + p.1.2 - p.2 > 0))).length := by
    rw [List.length_map, List.length_zip, List.length_zip]
    omega
  rw [List.getD_eq_getElem _ _ hz, List.getD_eq_getElem _ _ hex,
    List.getD_eq_getElem _ _ hey, List.getD_eq_getElem _ _ hed,
    List.getElem_map, List.getElem_zip, List.getElem_zip]

/-! ## Claim C1: the MWM message update -/

/-- **C1.**  Messages start at `x = y = W.data`; one `_update_messages` call
computes, at every candidate edge `e`,
`x[e] = W.data[e] - max(0, other_row_max(y))[e]` from the previous `y`,
then `y[e] = W.data[e] - max(0, other_col_max(x))[e]` from the just-updated
`x`, and finally `mates[e] = (x[e] + y[e] - W.data[e] > 0)`. -/
theorem mwm_update_characterization (W : CSR) (hW : W.Wf) (s : MWMState)
    (hy : s.y.length = W.E) (e : ℕ) (he : e < W.E) :
    (initMessages W).x = W.data ∧
    (initMessages W).y = W.data ∧
    (stepMWM W s).x.getD e 0
      = W.data.getD e 0 - max 0 ((W.otherRowmax s.y).getD e 0) ∧
    (stepMWM W s).y.getD e 0
      = W.data.getD e 0 - max 0 ((W.otherColmax ((stepMWM W s).x)).getD e 0) ∧
    (stepMWM W s).mates.getD e false
      = decide ((stepMWM W s).x.getD e 0 + (stepMWM W s).y.getD e 0
          - W.data.getD e 0 > 0) := by
  have hrow : (W.otherRowmax s.y).length = W.E := otherRowmax_length W hW s.y hy
  have hdata : W.data.length = W.E := rfl
  refine ⟨rfl, rfl, ?_, ?_, ?_⟩
  · exact getD_map_zip_sub W.data (W.otherRowmax s.y) e he (by omega)
  · have hcol : (W.otherColmax ((stepMWM W s).x)).length = W.E :=
      otherColmax_length W hW _
    exact getD_map_zip_sub W.data (W.otherColmax ((stepMWM W s).x)) e he (by omega)
  · have hx : (stepMWM W s).x.length = W.E := by
      show ((W.data.zip (W.otherRowmax s.y)).map (fun p => p.1 - max 0 p.2)).length = W.E
      rw [List.length_map, List.length_zip]
      omega
    have hyy : (stepMWM W s).y.length = W.E := by
      show ((W.data.zip (W.otherColmax ((stepMWM W s).x))).map
        (fun p => p.1 - max 0 p.2)).length = W.E
      have hcol : (W.otherColmax ((stepMWM W s).x)).length = W.E :=
        otherColmax_length W hW _
      rw [List.length_map, List.length_zip]
      omega
    exact getD_mates_map ((stepMWM W s).x) ((stepMWM W s).y) W.data e
      (by omega) (by omega) he

/-- A concrete 2×2 candidate matrix (full pattern). -/
def W22 : CSR := ⟨2, 2, [0, 2, 4], [0, 1, 0, 1], [9/10, 1/10, 2/10, 8/10]⟩

/-- Witness for C1 at the concrete matrix `W22`, state `initMessages W22`,
edge `0`. -/
theorem mwm_update_characterization_witness :
    (stepMWM W22 (initMessages W22)).x.getD 0 0
      = W22.data.getD 0 0 - max 0 ((W22.otherRowmax (initMessages W22).y).getD 0 0) :=
  (mwm_update_characterization W22 (by unfold CSR.Wf; decide) (initMessages W22)
    (by decide) 0 (by decide)).2.2.1

/-! ## Claim C3: the matching read-out -/

theorem xorReduce_foldl (l : List Bool) (b : Bool) :
    l.foldl xor b = xor b (decide (l.count true % 2 = 1)) := by
  induction l generalizing b with
  | nil => simp
  | cons a t ih =>
    rw [List.foldl_cons, ih (xor b a)]
    cases a <;> cases b <;>
      simp [List.count_cons, Nat.add_mod] <;>
      rcases Nat.mod_two_eq_zero_or_one (t.count true) with h | h <;>
      simp [h]

theorem xorReduce_eq_parity (l : List Bool) :
    xorReduce l = decide (l.count true % 2 = 1) := by
  unfold xorReduce
  rw [xorReduce_foldl]
  simp

theorem maskSelect_ne_nil {α : Type} (v : List α) (mask : List Bool)
    (hlen : mask.length ≤ v.length) (h : true ∈ mask) :
    maskSelect v mask ≠ [] := by
  obtain ⟨i, hi, hie⟩ := List.mem_iff_getElem.mp h
  have hiv : i < v.length := lt_of_lt_of_le hi hlen
  have hzl : i < (v.zip mask).length := by
    rw [List.length_zip]
    omega
  have hmem : (v[i], true) ∈ v.zip mask := by
    rw [← hie]
    have : (v.zip mask)[i] = (v[i], mask[i]) := List.getElem_zip
    rw [← this]
    exact List.getElem_mem hzl
  have hmemf : (v[i], true) ∈ (v.zip mask).filter (fun p => p.2) :=
    List.mem_filter.mpr ⟨hmem, rfl⟩
  unfold maskSelect
  intro hnil
  rw [List.map_eq_nil] at hnil
  rw [hnil] at hmemf
  simp at hmemf

/-- The slice of an edge-indexed vector belonging to row `r`. -/
def rowSliceAt {α : Type} (W : CSR) (r : ℕ) (v : List α) : List α :=
  pySlice v (W.indptr.getD r 0) (W.indptr.getD (r + 1) 0)

theorem slicesAt_getD {α : Type} (ptr : List ℕ) (v : List α) (r : ℕ)
    (hr : r + 1 < ptr.length) :
    (slicesAt ptr v).getD r [] = pySlice v (ptr.getD r 0) (ptr.getD (r + 1) 0) := by
  have hzl : r < (ptr.zip ptr.tail).length := by
    rw [List.length_zip, List.length_tail]
    omega
  have hml : r < (slicesAt ptr v).length := by
    unfold slicesAt
    rw [List.length_map]
    exact hzl
  have hrt : r < ptr.tail.length := by
    rw [List.length_tail]
    omega
  have hrp : r < ptr.length := by omega
  rw [List.getD_eq_getElem _ _ hml]
  unfold slicesAt
  rw [List.getElem_map, List.getElem_zip]
  rw [List.getD_eq_getElem _ _ hrp, List.getD_eq_getElem _ _ hr]
  congr 1
  rw [List.getElem_tail]

/-- A 1×3 candidate matrix used as the C3 counterexample. -/
def W13 : CSR := ⟨1, 3, [0, 3], [0, 1, 2], [1, 2, 3]⟩

/-- **C3, counterexample.**  With three mated edges in the single row (not
"exactly one"), the code still reports a match: `np.logical_xor.reduce`
computes the parity, which is `1` for three `True`s, and the first mated
column (here `0`) is returned.  The claim predicts no match. -/
theorem matching_exactly_one_counterexample :
    ([true, true, true].count true ≠ 1) ∧
    matching W13 [true, true, true] = [(0, some 0)] := by
  constructor
  · decide
  · decide

/-- **C3, amended.**  A row is reported as matched iff the number of mated
edges in the row is odd (`np.logical_xor.reduce` is a parity), and the
reported secondary column is the column of the *first* mated edge of the
row; in particular a row with an odd number (1, 3, 5, ...) of mated edges
yields a match and any even number yields none. -/
theorem matching_parity_characterization (W : CSR) (hW : W.Wf)
    (mates : List Bool) (hm : mates.length = W.E) (r : ℕ) (hr : r < W.nrows) :
    (matching W mates).getD r (0, none)
      = (r, if (rowSliceAt W r mates).count true % 2 = 1
            then (maskSelect (rowSliceAt W r W.indices) (rowSliceAt W r mates)).head?
            else none) ∧
    ((rowSliceAt W r mates).count true % 2 = 1 →
      ∃ c, (maskSelect (rowSliceAt W r W.indices) (rowSliceAt W r mates)).head?
        = some c) := by
  obtain ⟨h1, h2, h3, h4, h5, h6, h7⟩ := hW
  have hr1 : r + 1 < W.indptr.length := by omega
  have hzl : r < (W.indptr.zip W.indptr.tail).length := by
    rw [List.length_zip, List.length_tail]
    omega
  have hlm : r < ((W.rowslice mates).zip (W.rowslice W.indices)).length := by
    unfold CSR.rowslice slicesAt
    rw [List.length_zip, List.length_map, List.length_map]
    simpa using hzl
  have hsm : (W.rowslice mates).getD r []
      = pySlice mates (W.indptr.getD r 0) (W.indptr.getD (r + 1) 0) :=
    slicesAt_getD W.indptr mates r hr1
  have hsi : (W.rowslice W.indices).getD r []
      = pySlice W.indices (W.indptr.getD r 0) (W.indptr.getD (r + 1) 0) :=
    slicesAt_getD W.indptr W.indices r hr1
  have hrsm : r < (W.rowslice mates).length := by
    unfold CSR.rowslice slicesAt
    rw [List.length_map]
    exact hzl
  have hrsi : r < (W.rowslice W.indices).length := by
    unfold CSR.rowslice slicesAt
    rw [List.length_map]
    exact hzl
  have hmain : (matching W mates).getD r (0, none)
      = (r, rowMatch (rowSliceAt W r mates) (rowSliceAt W r W.indices)) := by
    unfold matching
    have hme : r < ((((W.rowslice mates).zip (W.rowslice W.indices)).map
        (fun p => rowMatch p.1 p.2)).enum).length := by
      rw [List.enum_length, List.length_map]
      exact hlm
    rw [List.getD_eq_getElem _ _ hme, List.getElem_enum, List.getElem_map,
      List.getElem_zip]
    have e1 : (W.rowslice mates)[r] = rowSliceAt W r mates := by
      rw [← List.getD_eq_getElem _ [] hrsm, hsm]
      rfl
    have e2 : (W.rowslice W.indices)[r] = rowSliceAt W r W.indices := by
      rw [← List.getD_eq_getElem _ [] hrsi, hsi]
      rfl
    rw [e1, e2]
  constructor
  · rw [hmain]
    unfold rowMatch
    rw [xorReduce_eq_parity]
    rcases Nat.mod_two_eq_zero_or_one ((rowSliceAt W r mates).count true) with hp | hp
    · rw [if_pos (by simp [hp]), if_neg (by omega)]
    · rw [if_neg (by simp [hp]), if_pos hp]
  · intro hodd
    have htr : true ∈ rowSliceAt W r mates := by
      have : 0 < (rowSliceAt W r mates).count true := by omega
      exact List.count_pos_iff_mem.mp this
    have hlen : (rowSliceAt W r mates).length ≤ (rowSliceAt W r W.indices).length := by
      unfold rowSliceAt pySlice
      rw [List.length_drop, List.length_drop, List.length_take, List.length_take,
        hm, h6]
    have hne := maskSelect_ne_nil (rowSliceAt W r W.indices) (rowSliceAt W r mates)
      hlen htr
    rcases hhead : (maskSelect (rowSliceAt W r W.indices) (rowSliceAt W r mates)).head? with
      _ | c
    · rw [List.head?_eq_none_iff] at hhead
      exact absurd hhead hne
    · exact ⟨c, rfl⟩

/-- Witness for the amended C3 at the concrete matrix `W13`, row `0`. -/
theorem matching_parity_characterization_witness :
    (matching W13 [true, false, true]).getD 0 (0, none)
      = (0, if (rowSliceAt W13 0 [true, false, true]).count true % 2 = 1
            then (maskSelect (rowSliceAt W13 0 W13.indices)
              (rowSliceAt W13 0 [true, false, true])).head?
            else none) :=
  (matching_parity_characterization W13
    (by unfold CSR.Wf; refine ⟨rfl, rfl, rfl, ?_, ?_, rfl, ?_⟩ <;> decide)
    [true, false, true] (by decide) 0 (by decide)).1

/-! ## Claims C8 and C9: the `_checkmatrix` preconditions -/

theorem rowSliceAt_data_length (W : CSR) (hW : W.Wf) (r : ℕ) (hr : r < W.nrows) :
    (rowSliceAt W r W.data).length
      = W.indptr.getD (r + 1) 0 - W.indptr.getD r 0 := by
  obtain ⟨h1, h2, h3, h4, h5, h6, h7⟩ := hW
  have hr1 : r + 1 < W.indptr.length := by omega
  have hub : W.indptr.getD (r + 1) 0 ≤ W.E := by
    apply h5
    rw [List.getD_eq_getElem _ _ hr1]
    exact List.getElem_mem hr1
  have hE : W.data.length = W.E := rfl
  unfold rowSliceAt pySlice
  rw [List.length_drop, List.length_take]
  omega

theorem indptr_pair_getElem (W : CSR) (hW : W.Wf) (r : ℕ) (hr : r < W.nrows)
    (hrz : r < (W.indptr.zip W.indptr.tail).length) :
    (W.indptr.zip W.indptr.tail)[r]
      = (W.indptr.getD r 0, W.indptr.getD (r + 1) 0) := by
  obtain ⟨h1, h2, h3, h4, h5, h6, h7⟩ := hW
  have hrp : r < W.indptr.length := by omega
  have hr1 : r + 1 < W.indptr.length := by omega
  rw [List.getElem_zip]
  rw [List.getD_eq_getElem _ _ hrp, List.getD_eq_getElem _ _ hr1]
  congr 1
  rw [List.getElem_tail]

/-- **C8.**  `_checkmatrix` raises the incomplete-bipartite error iff some
row or some column of `W` holds no stored (candidate) entry; otherwise the
matrix is accepted unchanged. -/
theorem checkmatrix_characterization (W : CSR) (hW : W.Wf) :
    (checkmatrix W = Except.error "Incomplete bipartite, (isolated nodes)"
      ↔ (∃ r < W.nrows, rowSliceAt W r W.data = [])
        ∨ (∃ c < W.ncols, c ∉ W.indices)) ∧
    ((∀ r < W.nrows, rowSliceAt W r W.data ≠ []) ∧ (∀ c < W.ncols, c ∈ W.indices)
      → checkmatrix W = Except.ok W) := by
  have hW2 := hW
  obtain ⟨h1, h2, h3, h4, h5, h6, h7⟩ := hW2
  have hrowlen : (W.indptr.zip W.indptr.tail).length = W.nrows := by
    rw [List.length_zip, List.length_tail, h1]
    omega
  have hcol : (((List.range W.ncols).map (fun c => W.indices.count c)).all
      (fun k => k ≠ 0) = true) ↔ ∀ c < W.ncols, c ∈ W.indices := by
    rw [List.all_eq_true]
    constructor
    · intro h c hc
      have hx := h (W.indices.count c)
        (List.mem_map.mpr ⟨c, List.mem_range.mpr hc, rfl⟩)
      simp only [decide_eq_true_eq] at hx
      exact List.count_pos_iff_mem.mp (Nat.pos_of_ne_zero hx)
    · intro h k hk
      obtain ⟨c, hc, rfl⟩ := List.mem_map.mp hk
      have hpos := List.count_pos_iff_mem.mpr (h c (List.mem_range.mp hc))
      simp only [decide_eq_true_eq]
      omega
  have hrow : (((W.indptr.zip W.indptr.tail).map (fun ab => ab.2 - ab.1)).all
      (fun k => k ≠ 0) = true) ↔ ∀ r < W.nrows, rowSliceAt W r W.data ≠ [] := by
    rw [List.all_eq_true]
    constructor
    · intro h r hr
      have hrz : r < (W.indptr.zip W.indptr.tail).length := by
        rw [hrowlen]
        exact hr
      have hpair := indptr_pair_getElem W hW r hr hrz
      have hx := h ((W.indptr.zip W.indptr.tail)[r].2
          - (W.indptr.zip W.indptr.tail)[r].1) (List.mem_map.mpr
            ⟨(W.indptr.zip W.indptr.tail)[r], List.getElem_mem hrz, rfl⟩)
      rw [hpair] at hx
      simp only [decide_eq_true_eq] at hx
      intro hnil
      have hlen := rowSliceAt_data_length W hW r hr
      rw [hnil] at hlen
      simp only [List.length_nil] at hlen
      omega
    · intro h k hk
      obtain ⟨ab, hab, rfl⟩ := List.mem_map.mp hk
      obtain ⟨r, hrz, hre⟩ := List.mem_iff_getElem.mp hab
      have hr : r < W.nrows := by
        rw [hrowlen] at hrz
        exact hrz
      have hpair := indptr_pair_getElem W hW r hr hrz
      have habe : ab = (W.indptr.getD r 0, W.indptr.getD (r + 1) 0) := by
        rw [← hre, hpair]
      subst habe
      have hlen := rowSliceAt_data_length W hW r hr
      have hpos : 0 < (rowSliceAt W r W.data).length := List.length_pos.mpr (h r hr)
      simp only [decide_eq_true_eq]
      show W.indptr.getD (r + 1) 0 - W.indptr.getD r 0 ≠ 0
      omega
  constructor
  · constructor
    · intro herr
      by_contra hno
      rw [not_or] at hno
      obtain ⟨hnr, hnc⟩ := hno
      push_neg at hnr hnc
      have hrT := hrow.mpr hnr
      have hcT := hcol.mpr hnc
      unfold checkmatrix at herr
      rw [if_pos ⟨hcT, hrT⟩] at herr
      exact absurd herr (by simp)
    · intro hiso
      unfold checkmatrix
      rw [if_neg]
      intro hcond
      obtain ⟨hcT, hrT⟩ := hcond
      rcases hiso with ⟨r, hr, hnil⟩ | ⟨c, hc, hnm⟩
      · exact absurd hnil (hrow.mp hrT r hr)
      · exact absurd (hcol.mp hcT c hc) hnm
  · intro hok
    obtain ⟨hrall, hcall⟩ := hok
    unfold checkmatrix
    rw [if_pos ⟨hcol.mpr hcall, hrow.mpr hrall⟩]

/-- Witness for C8 at the concrete matrix `W22` (no isolated node, so the
check succeeds). -/
theorem checkmatrix_characterization_witness :
    checkmatrix W22 = Except.ok W22 :=
  (checkmatrix_characterization W22
    (by unfold CSR.Wf; refine ⟨rfl, rfl, rfl, ?_, ?_, rfl, ?_⟩ <;> decide)).2
    ⟨by decide, by decide⟩

/-- The 1×1 matrix with the single (stored) weight `-1`. -/
def Wneg : CSR := ⟨1, 1, [0, 1], [0], [-1]⟩

/-- **C9 (code bug).**  A negative similarity weight does *not* make the
solver fail: `_checkmatrix` only performs the bipartite-completeness test
(the positivity check is left as a `.. todo::` in its docstring), so the
matrix `[[-1]]` is accepted and no `NegativeWeight` error exists. -/
theorem checkmatrix_accepts_negative_weight :
    ((-1 : ℚ) ∈ Wneg.data ∧ (-1 : ℚ) < 0) ∧ checkmatrix Wneg = Except.ok Wneg := by
  refine ⟨⟨?_, ?_⟩, ?_⟩
  · decide
  · decide
  · rfl

/-! ## Claim C10: the `tocol` / `torow` permutations -/

theorem scanl_add_chain (l : List ℕ) : ∀ a, List.Chain' (· ≤ ·) (l.scanl (· + ·) a) := by
  induction l with
  | nil =>
    intro a
    simp
  | cons b t ih =>
    intro a
    rw [List.scanl_cons]
    cases t with
    | nil =>
      simp only [List.scanl_nil, List.singleton_append, List.chain'_cons,
        List.chain'_singleton, and_true]
      omega
    | cons c t2 =>
      rw [List.scanl_cons]
      simp only [List.singleton_append, List.chain'_cons]
      refine ⟨by omega, ?_⟩
      have h := ih (a + b)
      rw [List.scanl_cons] at h
      simpa using h

theorem scanl_add_getLast (l : List ℕ) : ∀ a,
    (l.scanl (· + ·) a).getLast? = some (a + l.sum) := by
  induction l with
  | nil =>
    intro a
    simp
  | cons b t ih =>
    intro a
    rw [List.scanl_cons]
    cases t with
    | nil =>
      simp [List.scanl_nil]
    | cons c t2 =>
      rw [List.scanl_cons]
      simp only [List.singleton_append, List.getLast?_cons_cons]
      have h := ih (a + b)
      rw [List.scanl_cons] at h
      simp only [List.singleton_append] at h
      rw [h]
      simp only [Option.some.injEq, List.sum_cons]
      omega

theorem sum_range_counts (l : List ℕ) (k : ℕ) (h : ∀ x ∈ l, x < k) :
    ((List.range k).map (fun c => l.count c)).sum = l.length := by
  have hf : ∀ f : ℕ → ℕ, ((List.range k).map f).sum = ∑ i in Finset.range k, f i :=
    fun f => rfl
  rw [hf]
  induction l with
  | nil => simp
  | cons a t ih =>
    have hak : a < k := h a (by simp)
    have hsum : ∀ c, (a :: t).count c = t.count c + (if c = a then 1 else 0) := by
      intro c
      rw [List.count_cons]
      by_cases hca : a = c
      · subst hca
        simp
      · simp [hca, Ne.symm hca]
    calc ∑ c in Finset.range k, (a :: t).count c
        = ∑ c in Finset.range k, (t.count c + (if c = a then 1 else 0)) := by
          apply Finset.sum_congr rfl
          intro c _
          exact hsum c
      _ = (∑ c in Finset.range k, t.count c)
          + (∑ c in Finset.range k, (if c = a then 1 else 0)) :=
          Finset.sum_add_distrib
      _ = t.length + 1 := by
          rw [ih (fun x hx => h x (List.mem_cons_of_mem _ hx))]
          congr 1
          rw [Finset.sum_ite_eq' (Finset.range k) a (fun _ => 1)]
          simp [Finset.mem_range.mpr hak]
      _ = (a :: t).length := by simp

theorem le_foldr_max (l : List ℕ) : ∀ x ∈ l, x ≤ l.foldr max 0 := by
  induction l with
  | nil => intro x hx; simp at hx
  | cons a t ih =>
    intro x hx
    rw [List.foldr_cons]
    rcases List.mem_cons.mp hx with rfl | hx2
    · exact le_max_left _ _
    · exact le_trans (ih x hx2) (le_max_right _ _)

theorem bincount_sum (l : List ℕ) : (bincount l).sum = l.length := by
  match l with
  | [] => rfl
  | a :: t =>
    unfold bincount
    exact sum_range_counts (a :: t) ((a :: t).foldr max 0 + 1)
      (fun x hx => Nat.lt_succ_of_le (le_foldr_max _ x hx))

theorem colmap_eq_scanl (W : CSR) :
    W.colmap = (bincount W.indices).scanl (· + ·) 0 := by
  unfold CSR.colmap cumsum
  cases bincount W.indices with
  | nil => rfl
  | cons b t => rw [List.scanl_cons]; rfl

theorem colmap_chain (W : CSR) : List.Chain' (· ≤ ·) W.colmap := by
  rw [colmap_eq_scanl]
  exact scanl_add_chain _ 0

theorem colmap_getLast (W : CSR) (hW : W.Wf) :
    W.colmap.getLast? = some W.E := by
  rw [colmap_eq_scanl, scanl_add_getLast, bincount_sum, hW.right.right.right.right.right.left]
  simp

theorem colmap_head (W : CSR) : W.colmap.head? = some 0 := rfl

theorem colmap_mem_le (W : CSR) (hW : W.Wf) : ∀ p ∈ W.colmap, p ≤ W.E := by
  intro p hp
  have h := chain_le_getLast W.colmap (colmap_chain W) p hp
  rw [colmap_getLast W hW] at h
  simpa using h

theorem gather_length {α : Type} [Inhabited α] (u : List α) (q : List ℕ) :
    (gather u q).length = q.length := by
  unfold gather
  rw [List.length_map]

theorem gather_getD {α : Type} [Inhabited α] (u : List α) (q : List ℕ) (j : ℕ)
    (hj : j < q.length) :
    (gather u q).getD j default = u.getD (q.getD j 0) default := by
  have hj2 : j < (gather u q).length := by rw [gather_length]; exact hj
  rw [List.getD_eq_getElem _ _ hj2]
  unfold gather
  rw [List.getElem_map, List.getD_eq_getElem q 0 hj]

theorem colslice_flatten_length (W : CSR) (hW : W.Wf) (v : List ℚ) :
    (((W.colslice v).map othermax).flatten).length = W.E := by
  unfold CSR.colslice
  rw [List.length_flatten, List.map_map]
  have heq : List.map (List.length ∘ othermax) (slicesAt W.colmap (gather v W.tocol))
      = List.map List.length (slicesAt W.colmap (gather v W.tocol)) :=
    List.map_congr_left (fun l _ => by simp [othermax_length])
  have hglen : (gather v W.tocol).length = W.E := by
    rw [gather_length]
    unfold CSR.tocol
    rw [argsort_length]
    exact hW.right.right.right.right.right.left
  rw [heq, slicesAt_flatten_length (gather v W.tocol) W.colmap
      (colmap_chain W)
      (fun p hp => by rw [hglen]; exact colmap_mem_le W hW p hp),
    colmap_getLast W hW, colmap_head]
  simp

theorem getD_inj_of_nodup (l : List ℕ) (hnd : l.Nodup) (i j : ℕ)
    (hi : i < l.length) (hj : j < l.length) (he : l.getD i 0 = l.getD j 0) :
    i = j := by
  rw [List.getD_eq_getElem _ _ hi, List.getD_eq_getElem _ _ hj] at he
  exact (List.Nodup.getElem_inj_iff hnd).mp he

theorem argsort_inverse_left (p : List ℕ) (n : ℕ)
    (hp : List.Perm p (List.range n)) :
    ∀ i, i < n → p.getD ((argsort p).getD i 0) 0 = i := by
  have hlen : p.length = n := by rw [hp.length_eq, List.length_range]
  have hsv : sortedVals p = List.range n := by
    have hs1 : List.Sorted (· ≤ ·) (sortedVals p) := sortedVals_sorted p
    have hs2 : List.Sorted (· ≤ ·) (List.range n) := List.sorted_le_range n
    exact List.eq_of_perm_of_sorted ((sortedVals_perm p).trans hp) hs1 hs2
  intro i hi
  have h1 := sortedVals_getD p i (by omega)
  rw [hsv] at h1
  rw [List.getD_eq_getElem _ _ (by rw [List.length_range]; exact hi),
    List.getElem_range] at h1
  exact h1.symm

theorem argsort_inverse_right (p : List ℕ) (n : ℕ)
    (hp : List.Perm p (List.range n)) :
    ∀ i, i < n → (argsort p).getD (p.getD i 0) 0 = i := by
  intro i hi
  have hlen : p.length = n := by rw [hp.length_eq, List.length_range]
  have hnd : p.Nodup := (hp.nodup_iff).mpr (List.nodup_range n)
  have hpi : p.getD i 0 < n := by
    have hmem : p.getD i 0 ∈ p := by
      rw [List.getD_eq_getElem _ _ (by omega)]
      exact List.getElem_mem (by omega)
    have := hp.subset hmem
    exact List.mem_range.mp this
  have h1 := argsort_inverse_left p n hp (p.getD i 0) hpi
  have hqb : (argsort p).getD (p.getD i 0) 0 < p.length := by
    have hql : p.getD i 0 < (argsort p).length := by rw [argsort_length]; omega
    have hmem : (argsort p).getD (p.getD i 0) 0 ∈ argsort p := by
      rw [List.getD_eq_getElem _ _ hql]
      exact List.getElem_mem hql
    exact mem_argsort.mp hmem
  exact getD_inj_of_nodup p hnd _ _ hqb (by omega) h1

/-- **C10.**  `tocol` (stable argsort of the column indices) and `torow`
(argsort of `tocol`) are mutually inverse permutations: gathering an
`E`-length vector through `tocol` and then `torow` is the identity, and
consequently `other_col_max` is exactly the concatenated per-column
leave-one-out maxima re-aligned to CSR edge order (gathering it back
through `tocol` recovers the column-ordered concatenation). -/
theorem tocol_torow_inverse (W : CSR) (hW : W.Wf) :
    (∀ v : List ℚ, v.length = W.E →
      gather (gather v W.tocol) W.torow = v) ∧
    (∀ v : List ℚ, v.length = W.E →
      gather (W.otherColmax v) W.tocol
        = ((W.colslice v).map othermax).flatten) := by
  have h6 : W.indices.length = W.E := hW.right.right.right.right.right.left
  have hp : List.Perm W.tocol (List.range W.E) := by
    have := argsort_perm W.indices
    rwa [h6] at this
  have hplen : W.tocol.length = W.E := by rw [hp.length_eq, List.length_range]
  have hqlen : W.torow.length = W.E := by
    unfold CSR.torow
    rw [argsort_length]
    exact hplen
  constructor
  · intro v hv
    apply List.ext_getElem
    · rw [gather_length, hqlen, hv]
    · intro i h1 h2
      have hiE : i < W.E := by
        rw [gather_length, hqlen] at h1
        exact h1
      have hq : W.torow.getD i 0 < W.E := by
        have hmem : W.torow.getD i 0 ∈ W.torow := by
          rw [List.getD_eq_getElem _ _ (by omega)]
          exact List.getElem_mem (by omega)
        have := mem_argsort.mp hmem
        rwa [hplen] at this
      have e1 : (gather (gather v W.tocol) W.torow)[i]
          = (gather (gather v W.tocol) W.torow).getD i default := by
        rw [List.getD_eq_getElem _ _ h1]
      have hinv : W.tocol.getD (W.torow.getD i 0) 0 = i :=
        argsort_inverse_left W.tocol W.E hp i hiE
      rw [e1, gather_getD _ _ _ (by omega),
        gather_getD _ _ _ (by rw [hplen]; exact hq),
        hinv, List.getD_eq_getElem _ _ h2]
  · intro v hv
    have hJ : (((W.colslice v).map othermax).flatten).length = W.E :=
      colslice_flatten_length W hW v
    apply List.ext_getElem
    · rw [gather_length, hplen, hJ]
    · intro i h1 h2
      have hiE : i < W.E := by
        rw [gather_length, hplen] at h1
        exact h1
      have hti : W.tocol.getD i 0 < W.E := by
        have hmem : W.tocol.getD i 0 ∈ W.tocol := by
          rw [List.getD_eq_getElem _ _ (by omega)]
          exact List.getElem_mem (by omega)
        have := hp.subset hmem
        exact List.mem_range.mp this
      have e1 : (gather (W.otherColmax v) W.tocol)[i]
          = (gather (W.otherColmax v) W.tocol).getD i default := by
        rw [List.getD_eq_getElem _ _ h1]
      rw [e1, gather_getD _ _ _ (by omega)]
      unfold CSR.otherColmax
      rw [gather_getD _ _ _ (by rw [hqlen]; exact hti)]
      have hinv : W.torow.getD (W.tocol.getD i 0) 0 = i :=
        argsort_inverse_right W.tocol W.E hp i hiE
      rw [hinv, List.getD_eq_getElem _ _ h2]

/-- Witness for C10 at the concrete matrix `W22` and the vector
`[1, 2, 3, 4]`. -/
theorem tocol_torow_inverse_witness :
    gather (gather [(1 : ℚ), 2, 3, 4] W22.tocol) W22.torow = [(1 : ℚ), 2, 3, 4] :=
  (tocol_torow_inverse W22 (by unfold CSR.Wf; refine ⟨rfl, rfl, rfl, ?_, ?_, rfl, ?_⟩ <;> decide)).1
    [1, 2, 3, 4] (by decide)

/-! ## Claim C5: convergence detection and the lazy iteration sequence -/

theorem pySliceNeg_length {α : Type} (l : List α) (a b : ℕ) :
    (pySliceNeg l a b).length = (l.length - b) - (l.length - a) := by
  unfold pySliceNeg
  rw [List.length_drop, List.length_take]
  omega

theorem pySliceNeg_getD (l : List ℚ) (a b j : ℕ)
    (hj : j < (l.length - b) - (l.length - a)) :
    (pySliceNeg l a b).getD j 0 = l.getD (l.length - a + j) 0 := by
  have h1 : l.length - a + j < l.length - b := by omega
  have h2 : l.length - a + j < l.length := by omega
  have hlen := pySliceNeg_length l a b
  have hjl : j < (pySliceNeg l a b).length := by rw [hlen]; exact hj
  rw [List.getD_eq_getElem _ _ hjl, List.getD_eq_getElem _ _ h2]
  unfold pySliceNeg
  rw [List.getElem_drop, List.getElem_take]

theorem reverse_getD (P : List ℚ) (j : ℕ) (hj : j < P.length) :
    P.reverse.getD j 0 = P.getD (P.length - 1 - j) 0 := by
  have hr : j < P.reverse.length := by rw [List.length_reverse]; exact hj
  rw [List.getD_eq_getElem _ _ hr, List.getElem_reverse,
    List.getD_eq_getElem _ _ (by omega : P.length - 1 - j < P.length)]

/-- Membership of the latest objective in the `[-50:-5]` window, phrased as
distances back from the latest value. -/
theorem mem_window_iff (obj : List ℚ) (A : ℚ) :
    A ∈ pySliceNeg obj 50 5 ↔
      ∃ d, 5 ≤ d ∧ d ≤ 49 ∧ d < obj.length ∧
        obj.getD (obj.length - 1 - d) 0 = A := by
  have hlen := pySliceNeg_length obj 50 5
  constructor
  · intro hmem
    obtain ⟨j, hj, hje⟩ := List.mem_iff_getElem.mp hmem
    rw [hlen] at hj
    have hval : obj.getD (obj.length - 50 + j) 0 = A := by
      rw [← pySliceNeg_getD obj 50 5 j hj, List.getD_eq_getElem _ _ (by rw [hlen]; exact hj)]
      exact hje
    refine ⟨obj.length - 1 - (obj.length - 50 + j), by omega, by omega, by omega, ?_⟩
    have heqi : obj.length - 1 - (obj.length - 1 - (obj.length - 50 + j))
        = obj.length - 50 + j := by omega
    rw [heqi]
    exact hval
  · intro hd
    obtain ⟨d, hd5, hd49, hdn, hde⟩ := hd
    apply List.mem_iff_getElem.mpr
    have hji : (obj.length - 1 - d) - (obj.length - 50)
        < (obj.length - 5) - (obj.length - 50) := by omega
    refine ⟨(obj.length - 1 - d) - (obj.length - 50), by rw [hlen]; omega, ?_⟩
    rw [← List.getD_eq_getElem _ 0 (by rw [hlen]; omega),
      pySliceNeg_getD obj 50 5 _ (by omega)]
    have heqi : obj.length - 50 + ((obj.length - 1 - d) - (obj.length - 50))
        = obj.length - 1 - d := by omega
    rw [heqi]
    exact hde

/-- The code's pivot (`patterns[::-1].index(actual) + m`) is an occurrence
distance and is the smallest occurrence distance `>= 5`. -/
theorem pivot_minimal (obj : List ℚ) (A : ℚ) (hmem : A ∈ pySliceNeg obj 50 5) :
    (5 ≤ (pySliceNeg obj 50 5).reverse.findIdx (fun v => v == A) + 5 ∧
     (pySliceNeg obj 50 5).reverse.findIdx (fun v => v == A) + 5 ≤ 49 ∧
     (pySliceNeg obj 50 5).reverse.findIdx (fun v => v == A) + 5 < obj.length ∧
     obj.getD (obj.length - 1
       - ((pySliceNeg obj 50 5).reverse.findIdx (fun v => v == A) + 5)) 0 = A) ∧
    (∀ e, 5 ≤ e →
      e < (pySliceNeg obj 50 5).reverse.findIdx (fun v => v == A) + 5 →
      obj.getD (obj.length - 1 - e) 0 ≠ A) := by
  have hlen := pySliceNeg_length obj 50 5
  set fi := (pySliceNeg obj 50 5).reverse.findIdx (fun v => v == A) with hfidef
  have hrmem : A ∈ (pySliceNeg obj 50 5).reverse := List.mem_reverse.mpr hmem
  have hex : ∃ x ∈ (pySliceNeg obj 50 5).reverse, (x == A) = true :=
    ⟨A, hrmem, by simp⟩
  have hfi : fi < (pySliceNeg obj 50 5).reverse.length :=
    List.findIdx_lt_length_of_exists hex
  have hrl : (pySliceNeg obj 50 5).reverse.length = (pySliceNeg obj 50 5).length :=
    List.length_reverse _
  have hLpos : 0 < (pySliceNeg obj 50 5).length :=
    List.length_pos.mpr (List.ne_nil_of_mem hmem)
  have hn6 : 6 ≤ obj.length := by
    rw [hlen] at hLpos
    omega
  have hfiL : fi < (pySliceNeg obj 50 5).length := by
    rw [← hrl]
    exact hfi
  have hfound : (pySliceNeg obj 50 5).reverse.getD fi 0 = A := by
    have h0 := @List.findIdx_getElem _ (fun v => v == A)
      ((pySliceNeg obj 50 5).reverse) hfi
    rw [List.getD_eq_getElem _ _ hfi]
    simpa using h0
  have hval : ∀ j, j < (pySliceNeg obj 50 5).length →
      (pySliceNeg obj 50 5).reverse.getD j 0
        = obj.getD (obj.length - 1 - (j + 5)) 0 := by
    intro j hj
    rw [reverse_getD _ _ hj, pySliceNeg_getD obj 50 5 _ (by rw [hlen] at hj ⊢; omega)]
    congr 1
    rw [hlen] at hj ⊢
    omega
  have hocc : obj.getD (obj.length - 1 - (fi + 5)) 0 = A :=
    (hval fi hfiL).symm.trans hfound
  rw [hlen] at hfiL
  refine ⟨⟨by omega, by omega, by omega, hocc⟩, ?_⟩
  intro e he5 helt hcontra
  have hje : e - 5 < fi := by omega
  have hjeL : e - 5 < (pySliceNeg obj 50 5).length := by
    rw [hlen]
    omega
  have hfalse := List.not_of_lt_findIdx
    (show e - 5 < (pySliceNeg obj 50 5).reverse.findIdx (fun v => v == A) from hje)
  have hveq : (pySliceNeg obj 50 5).reverse.getD (e - 5) 0 = A := by
    rw [hval (e - 5) hjeL]
    have heqi : obj.length - 1 - (e - 5 + 5) = obj.length - 1 - e := by omega
    rw [heqi]
    exact hcontra
  have hjer : e - 5 < (pySliceNeg obj 50 5).reverse.length := by
    rw [hrl]
    exact hjeL
  rw [List.getD_eq_getElem _ _ hjer] at hveq
  rw [hveq] at hfalse
  simp at hfalse

theorem extraIters_yields (W : CSR) :
    ∀ (k : ℕ) (s : MWMState) (niter : ℕ),
      (extraIters W k s niter).1 = (List.range k).map (fun j => niter + 1 + j) := by
  intro k
  induction k with
  | zero =>
    intro s niter
    rfl
  | succ k ih =>
    intro s niter
    show (niter + 1) :: (extraIters W k (stepMWM W s) (niter + 1)).1 = _
    rw [ih, List.range_succ_eq_map]
    simp only [List.map_cons, List.map_map]
    congr 1
    apply List.map_congr_left
    intro j _
    simp only [Function.comp_apply, Nat.succ_eq_add_one]
    omega

/-- **C5.**  (a) `_converged` fires exactly when the latest objective equals
some value among the last `w = 50` objectives excluding the newest `m = 5`,
with `d` the distance back to the most recent such repeat, and the window
`Φ[-2d:-d]` equals `Φ[-d:]` elementwise; the recorded extra-iteration count
is `argmax(Φ[-d:]) + 1`.  (b) Upon convergence, `compute_matching` yields
the extra iteration numbers one by one, then the `maxiter` sentinel, and
the sequence ends. -/
theorem converged_characterization :
    (∀ (obj : List ℚ) (k : ℕ),
      convergedCheck obj = some k ↔
        (obj ≠ [] ∧ ∃ d, 5 ≤ d ∧ d ≤ 49 ∧ d < obj.length ∧
          obj.getD (obj.length - 1 - d) 0 = obj.getLast?.getD 0 ∧
          (∀ e, 5 ≤ e → e < d →
            obj.getD (obj.length - 1 - e) 0 ≠ obj.getLast?.getD 0) ∧
          pySliceNeg obj (2 * d) d = lastN obj d ∧
          k = npArgmax (lastN obj d) + 1)) ∧
    (∀ (W : CSR) (s : MWMState) (niter fuel maxiter k : ℕ),
      convergedCheck (stepMWM W s).objective = some k →
        (computeAux W (fuel + 1) s niter maxiter).1
          = (niter + 1) :: ((List.range k).map (fun j => niter + 2 + j) ++ [maxiter])) := by
  constructor
  · intro obj k
    constructor
    · intro hsome
      cases hobj : obj.getLast? with
      | none =>
        exfalso
        simp [convergedCheck, hobj] at hsome
      | some A =>
        have hne : obj ≠ [] := by
          intro h0
          rw [h0] at hobj
          simp at hobj
        have hAgd : obj.getLast?.getD 0 = A := by rw [hobj]; rfl
        simp only [convergedCheck, hobj] at hsome
        by_cases hmem : A ∈ pySliceNeg obj 50 5
        · rw [if_pos hmem] at hsome
          by_cases hwin : pySliceNeg obj
              (2 * ((pySliceNeg obj 50 5).reverse.findIdx (fun v => v == A) + 5))
              ((pySliceNeg obj 50 5).reverse.findIdx (fun v => v == A) + 5)
            = lastN obj ((pySliceNeg obj 50 5).reverse.findIdx (fun v => v == A) + 5)
          · rw [if_pos hwin] at hsome
            have hk := Option.some.inj hsome
            obtain ⟨⟨h5p, h49, hpn, hocc⟩, hmin⟩ := pivot_minimal obj A hmem
            refine ⟨hne, (pySliceNeg obj 50 5).reverse.findIdx (fun v => v == A) + 5,
              h5p, h49, hpn, hocc, ?_, hwin, hk.symm⟩
            intro e he5 hed
            exact hmin e he5 hed
          · rw [if_neg hwin] at hsome
            cases hsome
        · rw [if_neg hmem] at hsome
          cases hsome
    · rintro ⟨hne, d, hd5, hd49, hdn, hocc, hminn, hwin, hk⟩
      cases hobj : obj.getLast? with
      | none => exact absurd (List.getLast?_eq_none_iff.mp hobj) hne
      | some A =>
        have hAgd : obj.getLast?.getD 0 = A := by rw [hobj]; rfl
        rw [hAgd] at hocc hminn
        have hmem : A ∈ pySliceNeg obj 50 5 :=
          (mem_window_iff obj A).mpr ⟨d, hd5, hd49, hdn, hocc⟩
        obtain ⟨⟨hp5, hp49, hppn, hpocc⟩, hpmin⟩ := pivot_minimal obj A hmem
        have hpd : (pySliceNeg obj 50 5).reverse.findIdx (fun v => v == A) + 5 = d := by
          rcases Nat.lt_trichotomy
              ((pySliceNeg obj 50 5).reverse.findIdx (fun v => v == A) + 5) d with
            hlt | heq | hgt
          · exact absurd hpocc (hminn _ hp5 hlt)
          · exact heq
          · exact absurd hocc (hpmin d hd5 hgt)
        simp only [convergedCheck, hobj]
        rw [if_pos hmem, hpd, if_pos hwin, hk]
  · intro W s niter fuel maxiter k hconv
    have hunf : computeAux W (fuel + 1) s niter maxiter
        = ((niter + 1) :: ((extraIters W k (stepMWM W s) (niter + 1)).1 ++ [maxiter]),
           (extraIters W k (stepMWM W s) (niter + 1)).2.1) := by
      simp only [computeAux, hconv]
    rw [hunf]
    show (niter + 1) :: ((extraIters W k (stepMWM W s) (niter + 1)).1 ++ [maxiter])
        = (niter + 1) :: (List.map (fun j => niter + 2 + j) (List.range k) ++ [maxiter])
    rw [extraIters_yields W k (stepMWM W s) (niter + 1)]

/-- A 1×1 matrix with weight `1`. -/
def W11 : CSR := ⟨1, 1, [0, 1], [0], [1]⟩

/-- A solver state whose objective history is nine `1`s; the next update
appends a tenth `1`, which triggers convergence with pivot `5` and one
extra iteration. -/
def s9 : MWMState := ⟨[1], [1], [true], List.replicate 9 1⟩

theorem stepMWM_W11_s9_objective :
    (stepMWM W11 s9).objective = List.replicate 10 1 := by
  norm_num [stepMWM, s9, W11, objectiveMWM, maskSelect, CSR.otherRowmax,
    CSR.otherColmax, CSR.rowslice, CSR.colslice, slicesAt, pySlice, othermax,
    argsort, gather, CSR.tocol, CSR.torow, CSR.colmap, cumsum, bincount, CSR.E,
    List.insertionSort, List.orderedInsert]
  rfl

/-- Witness for C5 at the concrete solver `W11`, state `s9`. -/
theorem converged_characterization_witness :
    (computeAux W11 1 s9 0 100).1
      = 1 :: ((List.range 1).map (fun j => 0 + 2 + j) ++ [100]) :=
  converged_characterization.2 W11 s9 0 0 100 1
    (by rw [stepMWM_W11_s9_objective]; decide)

/-! ## Claim C2: the NAQP message update -/

theorem getD_map_range (f : ℕ → ℚ) (E e : ℕ) (he : e < E) :
    ((List.range E).map f).getD e 0 = f e := by
  have hl : e < ((List.range E).map f).length := by
    rw [List.length_map, List.length_range]
    exact he
  rw [List.getD_eq_getElem _ _ hl, List.getElem_map, List.getElem_range]

theorem getD_map_zip3 (x y d : List ℚ) (e : ℕ) (hex : e < x.length)
    (hey : e < y.length) (hed : e < d.length) :
    (((x.zip y).zip d).map (fun p => p.1.1 + p.1.2 - p.2)).getD e 0
      = x.getD e 0 + y.getD e 0 - d.getD e 0 := by
  have hz : e < (((x.zip y).zip d).map (fun p => p.1.1 + p.1.2 - p.2)).length := by
    rw [List.length_map, List.length_zip, List.length_zip]
    omega
  rw [List.getD_eq_getElem _ _ hz, List.getD_eq_getElem _ _ hex,
    List.getD_eq_getElem _ _ hey, List.getD_eq_getElem _ _ hed,
    List.getElem_map, List.getElem_zip, List.getElem_zip]

theorem getD_map_decide_ge (l : List ℚ) (e : ℕ) (he : e < l.length) :
    (l.map (fun v => decide (v ≥ 0))).getD e false = decide (l.getD e 0 ≥ 0) := by
  have hl : e < (l.map (fun v => decide (v ≥ 0))).length := by
    rw [List.length_map]
    exact he
  rw [List.getD_eq_getElem _ _ hl, List.getElem_map, List.getD_eq_getElem _ _ he]

/-- **C2.**  One `BeliefNAQP._update_messages` call computes, on `Q`'s
sparsity pattern, `zclip = clip(Zᵀ + β, 0, β)`; then
`m_z[e] = W.data[e] + rowsum(zclip)[e]`,
`x[e] = m_z[e] - max(0, other_row_max(y)[e])` from the previous `y`,
`y[e] = m_z[e] - max(0, other_col_max(x)[e])` from the just-updated `x`,
`mates[e] = (x[e] + y[e] - m_z[e] ≥ 0)`,
`Z[r,c] = m_xyz[r] - zclip[r,c]` on the pattern (i.e.
`Z = diag(m_xyz)·Q - zclip`, the stored values of `Q` all being `1`), and
appends the objective `Φ = Σ_{mates} W.data + β · #squares/2`. -/
theorem naqp_update_characterization (W : CSR) (hW : W.Wf) (Q : SqMat)
    (beta : ℚ) (s : NAQPState) (hy : s.y.length = W.E) (e : ℕ) (he : e < W.E)
    (r c : ℕ) (hrc : (r, c) ∈ Q.pat) (hcr : (c, r) ∈ Q.pat) (hr : r < W.E) :
    zclipF beta Q s.z r c = min (max (s.z c r + beta) 0) beta ∧
    (stepNAQP W Q beta s).x.getD e 0
      = (W.data.getD e 0 + zclipRowSum beta Q s.z e)
        - max 0 ((W.otherRowmax s.y).getD e 0) ∧
    (stepNAQP W Q beta s).y.getD e 0
      = (W.data.getD e 0 + zclipRowSum beta Q s.z e)
        - max 0 ((W.otherColmax ((stepNAQP W Q beta s).x)).getD e 0) ∧
    (stepNAQP W Q beta s).mates.getD e false
      = decide ((stepNAQP W Q beta s).x.getD e 0 + (stepNAQP W Q beta s).y.getD e 0
          - (W.data.getD e 0 + zclipRowSum beta Q s.z e) ≥ 0) ∧
    (stepNAQP W Q beta s).z r c
      = ((stepNAQP W Q beta s).x.getD r 0 + (stepNAQP W Q beta s).y.getD r 0
          - (W.data.getD r 0 + zclipRowSum beta Q s.z r))
        - zclipF beta Q s.z r c ∧
    (stepNAQP W Q beta s).objective
      = s.objective ++ [objectiveMWM W (stepNAQP W Q beta s).mates
          + beta * numsquares Q (stepNAQP W Q beta s).mates] := by
  have hrow : (W.otherRowmax s.y).length = W.E := otherRowmax_length W hW s.y hy
  have hmz : ((List.range W.E).map
      (fun e => W.data.getD e 0 + zclipRowSum beta Q s.z e)).length = W.E := by
    rw [List.length_map, List.length_range]
  have hx : (stepNAQP W Q beta s).x.length = W.E := by
    show ((((List.range W.E).map
        (fun e => W.data.getD e 0 + zclipRowSum beta Q s.z e)).zip
      (W.otherRowmax s.y)).map (fun p => p.1 - max 0 p.2)).length = W.E
    rw [List.length_map, List.length_zip]
    omega
  have hcol : (W.otherColmax ((stepNAQP W Q beta s).x)).length = W.E :=
    otherColmax_length W hW _
  have hyy : (stepNAQP W Q beta s).y.length = W.E := by
    show ((((List.range W.E).map
        (fun e => W.data.getD e 0 + zclipRowSum beta Q s.z e)).zip
      (W.otherColmax ((stepNAQP W Q beta s).x))).map
        (fun p => p.1 - max 0 p.2)).length = W.E
    rw [List.length_map, List.length_zip]
    omega
  have hmzgetD : ∀ j, j < W.E → ((List.range W.E).map
      (fun e => W.data.getD e 0 + zclipRowSum beta Q s.z e)).getD j 0
        = W.data.getD j 0 + zclipRowSum beta Q s.z j :=
    fun j hj => getD_map_range _ W.E j hj
  refine ⟨by unfold zclipF; rw [if_pos hcr], ?_, ?_, ?_, ?_, rfl⟩
  · have h1 := getD_map_zip_sub ((List.range W.E).map
      (fun e => W.data.getD e 0 + zclipRowSum beta Q s.z e)) (W.otherRowmax s.y)
      e (by omega) (by omega)
    rw [hmzgetD e he] at h1
    exact h1
  · have h1 := getD_map_zip_sub ((List.range W.E).map
      (fun e => W.data.getD e 0 + zclipRowSum beta Q s.z e))
      (W.otherColmax ((stepNAQP W Q beta s).x)) e (by omega) (by omega)
    rw [hmzgetD e he] at h1
    exact h1
  · have h1 := getD_map_decide_ge (((((stepNAQP W Q beta s).x).zip
      ((stepNAQP W Q beta s).y)).zip ((List.range W.E).map
        (fun e => W.data.getD e 0 + zclipRowSum beta Q s.z e))).map
        (fun p => p.1.1 + p.1.2 - p.2)) e
      (by rw [List.length_map, List.length_zip, List.length_zip]; omega)
    have h2 := getD_map_zip3 ((stepNAQP W Q beta s).x) ((stepNAQP W Q beta s).y)
      ((List.range W.E).map (fun e => W.data.getD e 0 + zclipRowSum beta Q s.z e))
      e (by omega) (by omega) (by omega)
    rw [h2, hmzgetD e he] at h1
    exact h1
  · show (if (r, c) ∈ Q.pat then
        ((((stepNAQP W Q beta s).x.zip ((stepNAQP W Q beta s).y)).zip
          ((List.range W.E).map
            (fun e => W.data.getD e 0 + zclipRowSum beta Q s.z e))).map
          (fun p => p.1.1 + p.1.2 - p.2)).getD r 0 - zclipF beta Q s.z r c
      else 0) = _
    rw [if_pos hrc]
    have h2 := getD_map_zip3 ((stepNAQP W Q beta s).x) ((stepNAQP W Q beta s).y)
      ((List.range W.E).map (fun e => W.data.getD e 0 + zclipRowSum beta Q s.z e))
      r (by omega) (by omega) (by omega)
    rw [h2, hmzgetD r hr]

/-- A squares matrix on `W22`'s four candidate edges: edges `0` and `3`
(the diagonal) form one square. -/
def Qsq : SqMat := ⟨[(0, 3), (3, 0)]⟩

/-- Witness for C2 on the concrete solver (`W22`, `Qsq`, `β = 5`), edge `0`
and pattern position `(0, 3)`. -/
theorem naqp_update_characterization_witness :
    (stepNAQP W22 Qsq 5 (initNAQP W22 Qsq)).x.getD 0 0
      = (W22.data.getD 0 0 + zclipRowSum 5 Qsq (initNAQP W22 Qsq).z 0)
        - max 0 ((W22.otherRowmax (initNAQP W22 Qsq).y).getD 0 0) :=
  (naqp_update_characterization W22
    (by unfold CSR.Wf; refine ⟨rfl, rfl, rfl, ?_, ?_, rfl, ?_⟩ <;> decide)
    Qsq 5 (initNAQP W22 Qsq) rfl 0 (by decide)
    0 3 (by decide) (by decide) (by decide)).2.1

/-! ## Claim C6: the sparsifier threshold -/

/-- **C6 (code bug).**  On `S = [[4,3],[1,2]]` with `sparsity_ratio = 1/2`,
so `k = round(1/2 · 4) = 2`: the code partitions the flattening `[4,3,1,2]`
at index `k - 1 = 1`, as the claim says, but then reads the threshold at
index `k = 2`, one past the partition point — a position whose value the
partition contract does not determine.  Both `[1,2,4,3]` (what numpy's
introselect actually returns here) and the full sort `[1,2,3,4]` satisfy
the contract at `kth = 1`, yet they make the program keep the masks
`[[T,F],[F,F]]` (threshold `4`) and `[[T,T],[F,F]]` (threshold `3`)
respectively, while the claim's threshold — `τ = 2`, the `k`-th smallest —
keeps `[[T,T],[F,T]]`.  So the program does not compute the claimed
threshold, and its output is not even a function of the documented
partition contract. -/
theorem sparseSimMask_threshold_bug :
    (pyRound ((1/2 : ℚ) * (DenseMat.size ⟨[[4, 3], [1, 2]]⟩))).toNat = 2 ∧
    isPartitionedAt (DenseMat.flat ⟨[[4, 3], [1, 2]]⟩) [1, 2, 4, 3] 1 ∧
    isPartitionedAt (DenseMat.flat ⟨[[4, 3], [1, 2]]⟩) [1, 2, 3, 4] 1 ∧
    sparseSimMask (fun _ _ => [1, 2, 4, 3]) ⟨[[4, 3], [1, 2]]⟩ (1/2)
      = [[true, false], [false, false]] ∧
    sparseSimMask (fun _ _ => [1, 2, 3, 4]) ⟨[[4, 3], [1, 2]]⟩ (1/2)
      = [[true, true], [false, false]] ∧
    claimSparseMask ⟨[[4, 3], [1, 2]]⟩ (1/2)
      = [[true, true], [false, true]] := by
  refine ⟨?_, ?_, ?_, ?_, ?_, ?_⟩
  · norm_num [pyRound, DenseMat.size]
    decide
  · unfold isPartitionedAt DenseMat.flat
    refine ⟨?_, ?_, ?_, ?_⟩ <;> decide
  · unfold isPartitionedAt DenseMat.flat
    refine ⟨?_, ?_, ?_, ?_⟩ <;> decide
  · norm_num [sparseSimMask, pyRound, DenseMat.size, DenseMat.flat]
    try decide
  · norm_num [sparseSimMask, pyRound, DenseMat.size, DenseMat.flat]
    try decide
  · norm_num [claimSparseMask, pyRound, DenseMat.size, DenseMat.flat,
      List.insertionSort, List.orderedInsert]
    try decide

/-! ## Claim C7: the refiner -/

theorem filter_mem_perm (l : List ℕ) (n : ℕ) (hnd : l.Nodup)
    (hb : ∀ x ∈ l, x < n) :
    List.Perm ((List.range n).filter (fun i => decide (i ∈ l))) l := by
  apply List.perm_iff_count.mpr
  intro a
  by_cases ha : a ∈ l
  · rw [List.count_filter (by simpa using ha),
      List.count_eq_one_of_mem (List.nodup_range n)
        (List.mem_range.mpr (hb a ha)),
      List.count_eq_one_of_mem hnd ha]
  · rw [List.count_eq_zero.mpr ha, List.count_eq_zero.mpr]
    intro hmem
    have := List.mem_filter.mp hmem
    simp at this
    exact ha this.2

theorem length_filter_partition {α : Type} (p : α → Bool) (l : List α) :
    (l.filter p).length + (l.filter (fun a => !(p a))).length = l.length := by
  induction l with
  | nil => simp
  | cons a t ih =>
    cases hpa : p a <;> simp [List.filter_cons, hpa] <;> omega

theorem filter_not_mem_length (l : List ℕ) (n : ℕ) (hnd : l.Nodup)
    (hb : ∀ x ∈ l, x < n) :
    ((List.range n).filter (fun i => decide (i ∉ l))).length = n - l.length := by
  have hcongr : (List.range n).filter (fun i => decide (i ∉ l))
      = (List.range n).filter (fun i => !(decide (i ∈ l))) := by
    apply List.filter_congr
    intro x _
    simp
  have hpart := length_filter_partition (fun i => decide (i ∈ l)) (List.range n)
  have hmem := (filter_mem_perm l n hnd hb).length_eq
  rw [hcongr]
  rw [List.length_range] at hpart
  omega

theorem gather_range_eq {α : Type} [Inhabited α] (v : List α) :
    gather v (List.range v.length) = v :=
  map_getD_range v

theorem gather_nodup (v : List ℕ) (idx : List ℕ) (hv : v.Nodup)
    (hidx : idx.Nodup) (hb : ∀ i ∈ idx, i < v.length) :
    (gather v idx).Nodup := by
  unfold gather
  apply (List.nodup_map_iff_inj_on hidx).mpr
  intro x hx y hy he
  exact getD_inj_of_nodup v hv x y (hb x hx) (hb y hy) he

theorem gather_subset (v : List ℕ) (idx : List ℕ)
    (hb : ∀ i ∈ idx, i < v.length) :
    ∀ x ∈ gather v idx, x ∈ v := by
  intro x hx
  unfold gather at hx
  obtain ⟨i, hi, rfl⟩ := List.mem_map.mp hx
  rw [List.getD_eq_getElem _ _ (hb i hi)]
  exact List.getElem_mem _

/-- **C7.**  Given a partial raw mapping with equally long, duplicate-free,
in-range index arrays, and a LAP kernel that returns a valid row-to-column
assignment (a permutation of the padded square size), `refine` returns a
mapping of length exactly `min(n, m)` whose primary and secondary arrays
are each duplicate-free and which extends the input mapping unchanged; in
particular a mapping that is already complete is returned as-is. -/
theorem refine_characterization (lapF : ℕ → (ℕ → ℕ → ℚ) → List ℕ)
    (hlap : ∀ size cost, List.Perm (lapF size cost) (List.range size))
    (score : ScoreMat) (mapping : List ℕ × List ℕ)
    (hlen : mapping.1.length = mapping.2.length)
    (hpn : mapping.1.Nodup) (hsn : mapping.2.Nodup)
    (hpr : ∀ i ∈ mapping.1, i < score.n) (hsr : ∀ j ∈ mapping.2, j < score.m) :
    (refine lapF score mapping).1.length = min score.n score.m ∧
    (refine lapF score mapping).2.length = min score.n score.m ∧
    (refine lapF score mapping).1.Nodup ∧
    (refine lapF score mapping).2.Nodup ∧
    (refine lapF score mapping).1.take mapping.1.length = mapping.1 ∧
    (refine lapF score mapping).2.take mapping.2.length = mapping.2 ∧
    (mapping.1.length = min score.n score.m → refine lapF score mapping = mapping) := by
  have hplen : mapping.1.length ≤ score.n := by
    have h1 := (filter_mem_perm mapping.1 score.n hpn hpr).length_eq
    have h2 := List.length_filter_le (fun i => decide (i ∈ mapping.1)) (List.range score.n)
    rw [List.length_range] at h2
    omega
  have hslen : mapping.2.length ≤ score.m := by
    have h1 := (filter_mem_perm mapping.2 score.m hsn hsr).length_eq
    have h2 := List.length_filter_le (fun j => decide (j ∈ mapping.2)) (List.range score.m)
    rw [List.length_range] at h2
    omega
  by_cases hfull : mapping.1.length = min score.n score.m
  · unfold refine
    rw [if_pos hfull]
    exact ⟨hfull, by omega, hpn, hsn, List.take_length _, List.take_length _,
      fun _ => rfl⟩
  · have hpmlen : (primaryMissing score mapping).length
        = score.n - mapping.1.length :=
      filter_not_mem_length mapping.1 score.n hpn hpr
    have hsmlen : (secondaryMissing score mapping).length
        = score.m - mapping.2.length :=
      filter_not_mem_length mapping.2 score.m hsn hsr
    have hpmnd : (primaryMissing score mapping).Nodup :=
      (List.nodup_range score.n).filter _
    have hsmnd : (secondaryMissing score mapping).Nodup :=
      (List.nodup_range score.m).filter _
    have hpmnot : ∀ x ∈ primaryMissing score mapping, x ∉ mapping.1 := by
      intro x hx
      have := (List.mem_filter.mp hx).2
      simpa using this
    have hsmnot : ∀ x ∈ secondaryMissing score mapping, x ∉ mapping.2 := by
      intro x hx
      have := (List.mem_filter.mp hx).2
      simpa using this
    by_cases hab : (primaryMissing score mapping).length
        > (secondaryMissing score mapping).length
    · -- transposed branch: more missing rows than missing columns (n > m)
      have hre : refine lapF score mapping
          = (mapping.1 ++ gather (primaryMissing score mapping)
              ((lapF (primaryMissing score mapping).length
                (fun i j => if i < (secondaryMissing score mapping).length
                  then lapScores score mapping j i else 0)).take
                (secondaryMissing score mapping).length),
             mapping.2 ++ gather (secondaryMissing score mapping)
              (List.range (secondaryMissing score mapping).length)) := by
        unfold refine
        rw [if_neg hfull]
        unfold solveLinearAssignment
        rw [if_pos hab]
      have hre1 : (refine lapF score mapping).1
          = mapping.1 ++ gather (primaryMissing score mapping)
              ((lapF (primaryMissing score mapping).length
                (fun i j => if i < (secondaryMissing score mapping).length
                  then lapScores score mapping j i else 0)).take
                (secondaryMissing score mapping).length) := by
        rw [hre]
      have hre2 : (refine lapF score mapping).2
          = mapping.2 ++ gather (secondaryMissing score mapping)
              (List.range (secondaryMissing score mapping).length) := by
        rw [hre]
      have hσ := hlap (primaryMissing score mapping).length
        (fun i j => if i < (secondaryMissing score mapping).length
          then lapScores score mapping j i else 0)
      have hσnd : (lapF (primaryMissing score mapping).length
          (fun i j => if i < (secondaryMissing score mapping).length
            then lapScores score mapping j i else 0)).Nodup :=
        (hσ.nodup_iff).mpr (List.nodup_range _)
      have htaknd : ((lapF (primaryMissing score mapping).length
          (fun i j => if i < (secondaryMissing score mapping).length
            then lapScores score mapping j i else 0)).take
          (secondaryMissing score mapping).length).Nodup :=
        (List.take_sublist _ _).nodup hσnd
      have htakb : ∀ x ∈ (lapF (primaryMissing score mapping).length
          (fun i j => if i < (secondaryMissing score mapping).length
            then lapScores score mapping j i else 0)).take
          (secondaryMissing score mapping).length,
          x < (primaryMissing score mapping).length := by
        intro x hx
        exact List.mem_range.mp (hσ.subset ((List.take_sublist _ _).subset hx))
      have htaklen : ((lapF (primaryMissing score mapping).length
          (fun i j => if i < (secondaryMissing score mapping).length
            then lapScores score mapping j i else 0)).take
          (secondaryMissing score mapping).length).length
          = (secondaryMissing score mapping).length := by
        rw [List.length_take, hσ.length_eq, List.length_range]
        omega
      have hgnd := gather_nodup _ _ hpmnd htaknd htakb
      have hgsub := gather_subset (primaryMissing score mapping) _ htakb
      have hsm_eq : gather (secondaryMissing score mapping)
          (List.range (secondaryMissing score mapping).length)
          = secondaryMissing score mapping := gather_range_eq _
      refine ⟨?_, ?_, ?_, ?_, ?_, ?_, fun h0 => absurd h0 hfull⟩
      · rw [hre1, List.length_append, gather_length, htaklen, hsmlen]
        omega
      · rw [hre2, hsm_eq, List.length_append, hsmlen]
        omega
      · rw [hre1, List.nodup_append]
        exact ⟨hpn, hgnd, fun x hx hx2 => hpmnot x (hgsub x hx2) hx⟩
      · rw [hre2, hsm_eq, List.nodup_append]
        exact ⟨hsn, hsmnd, fun x hx hx2 => hsmnot x hx2 hx⟩
      · rw [hre1]
        exact List.take_left _ _
      · rw [hre2]
        exact List.take_left _ _
    · -- direct branch: n ≤ m
      have hre : refine lapF score mapping
          = (mapping.1 ++ gather (primaryMissing score mapping)
              (List.range (primaryMissing score mapping).length),
             mapping.2 ++ gather (secondaryMissing score mapping)
              ((lapF (secondaryMissing score mapping).length
                (fun i j => if i < (primaryMissing score mapping).length
                  then lapScores score mapping i j else 0)).take
                (primaryMissing score mapping).length)) := by
        unfold refine
        rw [if_neg hfull]
        unfold solveLinearAssignment
        rw [if_neg hab]
      have hre1 : (refine lapF score mapping).1
          = mapping.1 ++ gather (primaryMissing score mapping)
              (List.range (primaryMissing score mapping).length) := by
        rw [hre]
      have hre2 : (refine lapF score mapping).2
          = mapping.2 ++ gather (secondaryMissing score mapping)
              ((lapF (secondaryMissing score mapping).length
                (fun i j => if i < (primaryMissing score mapping).length
                  then lapScores score mapping i j else 0)).take
                (primaryMissing score mapping).length) := by
        rw [hre]
      have hσ := hlap (secondaryMissing score mapping).length
        (fun i j => if i < (primaryMissing score mapping).length
          then lapScores score mapping i j else 0)
      have hσnd : (lapF (secondaryMissing score mapping).length
          (fun i j => if i < (primaryMissing score mapping).length
            then lapScores score mapping i j else 0)).Nodup :=
        (hσ.nodup_iff).mpr (List.nodup_range _)
      have htaknd : ((lapF (secondaryMissing score mapping).length
          (fun i j => if i < (primaryMissing score mapping).length
            then lapScores score mapping i j else 0)).take
          (primaryMissing score mapping).length).Nodup :=
        (List.take_sublist _ _).nodup hσnd
      have htakb : ∀ x ∈ (lapF (secondaryMissing score mapping).length
          (fun i j => if i < (primaryMissing score mapping).length
            then lapScores score mapping i j else 0)).take
          (primaryMissing score mapping).length,
          x < (secondaryMissing score mapping).length := by
        intro x hx
        exact List.mem_range.mp (hσ.subset ((List.take_sublist _ _).subset hx))
      have htaklen : ((lapF (secondaryMissing score mapping).length
          (fun i j => if i < (primaryMissing score mapping).length
            then lapScores score mapping i j else 0)).take
          (primaryMissing score mapping).length).length
          = (primaryMissing score mapping).length := by
        rw [List.length_take, hσ.length_eq, List.length_range]
        omega
      have hgnd := gather_nodup _ _ hsmnd htaknd htakb
      have hgsub := gather_subset (secondaryMissing score mapping) _ htakb
      have hpm_eq : gather (primaryMissing score mapping)
          (List.range (primaryMissing score mapping).length)
          = primaryMissing score mapping := gather_range_eq _
      refine ⟨?_, ?_, ?_, ?_, ?_, ?_, fun h0 => absurd h0 hfull⟩
      · rw [hre1, hpm_eq, List.length_append, hpmlen]
        omega
      · rw [hre2, List.length_append, gather_length, htaklen, hpmlen]
        omega
      · rw [hre1, hpm_eq, List.nodup_append]
        exact ⟨hpn, hpmnd, fun x hx hx2 => hpmnot x hx2 hx⟩
      · rw [hre2, List.nodup_append]
        exact ⟨hsn, hgnd, fun x hx hx2 => hsmnot x (hgsub x hx2) hx⟩
      · rw [hre1]
        exact List.take_left _ _
      · rw [hre2]
        exact List.take_left _ _

/-- A 3×3 residual score matrix for the C7 witness. -/
def sc33 : ScoreMat := ⟨3, 3, fun i j => if i = j then 1 else 0⟩

/-- A trivial LAP kernel satisfying the permutation contract: it assigns
row `i` to column `i`. -/
def idLap : ℕ → (ℕ → ℕ → ℚ) → List ℕ := fun size _ => List.range size

/-- Witness for C7 on the concrete input `sc33` with the partial mapping
`([0], [1])`. -/
theorem refine_characterization_witness :
    (refine idLap sc33 ([0], [1])).1.length = min sc33.n sc33.m ∧
    (refine idLap sc33 ([0], [1])).2.length = min sc33.n sc33.m ∧
    (refine idLap sc33 ([0], [1])).1.Nodup ∧
    (refine idLap sc33 ([0], [1])).2.Nodup :=
  have h := refine_characterization idLap
    (fun size cost => List.Perm.refl _) sc33 ([0], [1])
    rfl (by decide) (by decide) (by decide) (by decide)
  ⟨h.1, h.2.1, h.2.2.1, h.2.2.2.1⟩

end QBinDiff
